import Mathlib

/-!
Shallow embedding of the morph-rs morphological analyzer (kribrum-os/morph-rs)
and verification of the specification claims against it.

Conventions of the embedding:
* Rust `String`/`&str` values are modelled as `List Char` (`Str`); byte-level
  lexicographic order on valid UTF-8 coincides with code-point lexicographic
  order, which is what `cmpStr` implements.
* Rust machine integers (`u64`, `u32`, `usize`) are modelled as `Nat`; none of
  the modelled code paths can overflow 64 bits on realistic dictionaries, and
  no claim depends on wrap-around.
* `Vec::sort`/`sort_by` (a stable sort) is modelled by `List.insertionSort`,
  which is also stable; stable sorts agree on every input.
* `slice::binary_search` is modelled by a fuel-indexed binary search returning
  `Option Nat`; only its postcondition (the element at a returned index
  compares equal to the probe) is relied upon, which holds for every version
  of the Rust algorithm.
* `HashMap`/`HashSet` are modelled as association lists / lists without
  duplicates; every use in the source is order-insensitive after the final
  sorts, as noted at each definition.
-/

namespace MorphRS

/-- Strings as lists of Unicode scalar values. -/
abbrev Str := List Char

/-- Convert a Lean string literal to the `Str` model. -/
def str (s : String) : Str := s.toList

/-! ## Comparators

Rust derives `Ord` structurally; we mirror that with explicit
`Ordering`-valued comparators and lawfulness predicates. -/

/-- `Nat` comparison, mirroring `u64::cmp`/`usize::cmp`. -/
def cmpNat (a b : Nat) : Ordering :=
  if a < b then .lt else if b < a then .gt else .eq

theorem cmpNat_eq {a b : Nat} : cmpNat a b = .eq ↔ a = b := by
  unfold cmpNat; split_ifs <;> simp <;> omega

theorem cmpNat_lt {a b : Nat} : cmpNat a b = .lt ↔ a < b := by
  unfold cmpNat; split_ifs <;> simp <;> omega

theorem cmpNat_gt {a b : Nat} : cmpNat a b = .gt ↔ b < a := by
  unfold cmpNat; split_ifs <;> simp <;> omega

theorem cmpNat_swap (a b : Nat) : (cmpNat a b).swap = cmpNat b a := by
  unfold cmpNat
  split_ifs <;> first | rfl | (exfalso; omega)

/-- Lexicographic comparison of lists, mirroring the derived `Ord` of
Rust `Vec<T>`/`&[T]` (elementwise, shorter sequence first on a tie). -/
def cmpList (cmp : α → α → Ordering) : List α → List α → Ordering
  | [], [] => .eq
  | [], _ :: _ => .lt
  | _ :: _, [] => .gt
  | a :: as, b :: bs =>
    match cmp a b with
    | .eq => cmpList cmp as bs
    | o => o

/-- Weak lawfulness of a comparator: enough for sorting, without requiring
that `eq` coincide with propositional equality (e.g. comparing by a
projection). -/
structure PreCmp (cmp : α → α → Ordering) : Prop where
  swap_eq : ∀ a b, (cmp a b).swap = cmp b a
  lt_trans : ∀ a b c, cmp a b = .lt → cmp b c = .lt → cmp a c = .lt
  eq_lt : ∀ a b c, cmp a b = .eq → cmp b c = .lt → cmp a c = .lt
  lt_eq : ∀ a b c, cmp a b = .lt → cmp b c = .eq → cmp a c = .lt
  eq_trans : ∀ a b c, cmp a b = .eq → cmp b c = .eq → cmp a c = .eq

/-- Full lawfulness: additionally `eq` decides propositional equality.
Exactly the contract of a derived Rust `Ord`. -/
structure LawCmp (cmp : α → α → Ordering) : Prop where
  eq_iff : ∀ a b, cmp a b = .eq ↔ a = b
  swap_eq : ∀ a b, (cmp a b).swap = cmp b a
  lt_trans : ∀ a b c, cmp a b = .lt → cmp b c = .lt → cmp a c = .lt

theorem LawCmp.pre {cmp : α → α → Ordering} (h : LawCmp cmp) : PreCmp cmp := by
  refine ⟨h.swap_eq, h.lt_trans, ?_, ?_, ?_⟩
  · intro a b c hab hbc
    rw [(h.eq_iff a b).1 hab]; exact hbc
  · intro a b c hab hbc
    rw [← (h.eq_iff b c).1 hbc]; exact hab
  · intro a b c hab hbc
    rw [(h.eq_iff a b).1 hab]; exact hbc

theorem lawCmpNat : LawCmp cmpNat := by
  refine ⟨fun a b => cmpNat_eq, cmpNat_swap, ?_⟩
  intro a b c h1 h2
  rw [cmpNat_lt] at *
  omega

theorem LawCmp.comap {cmp : α → α → Ordering} (h : LawCmp cmp) (f : β → α)
    (hf : ∀ x y, f x = f y → x = y) :
    LawCmp (fun a b => cmp (f a) (f b)) := by
  refine ⟨fun a b => ?_, fun a b => h.swap_eq _ _, fun a b c => h.lt_trans _ _ _⟩
  rw [h.eq_iff]
  exact ⟨fun hh => hf _ _ hh, fun hh => by rw [hh]⟩

theorem PreCmp.comap_pre {cmp : α → α → Ordering} (h : PreCmp cmp) (f : β → α) :
    PreCmp (fun a b => cmp (f a) (f b)) :=
  ⟨fun a b => h.swap_eq _ _, fun a b c => h.lt_trans _ _ _,
   fun a b c => h.eq_lt _ _ _, fun a b c => h.lt_eq _ _ _,
   fun a b c => h.eq_trans _ _ _⟩

/-- Reversed comparator (used for the descending-popularity sort). -/
def cmpFlip (cmp : α → α → Ordering) (a b : α) : Ordering := cmp b a

theorem PreCmp.flip {cmp : α → α → Ordering} (h : PreCmp cmp) :
    PreCmp (cmpFlip cmp) :=
  ⟨fun a b => h.swap_eq b a, fun a b c h1 h2 => h.lt_trans c b a h2 h1,
   fun a b c h1 h2 => h.lt_eq c b a h2 h1,
   fun a b c h1 h2 => h.eq_lt c b a h2 h1,
   fun a b c h1 h2 => h.eq_trans c b a h2 h1⟩

theorem cmpList_eq {cmp : α → α → Ordering}
    (hcmp : ∀ a b, cmp a b = .eq ↔ a = b) :
    ∀ l1 l2 : List α, cmpList cmp l1 l2 = .eq ↔ l1 = l2
  | [], [] => by simp [cmpList]
  | [], _ :: _ => by simp [cmpList]
  | _ :: _, [] => by simp [cmpList]
  | a :: as, b :: bs => by
    simp only [cmpList]
    rcases ho : cmp a b with _ | _ | _
    · constructor
      · intro hc; cases hc
      · rintro ⟨⟩
        rw [(hcmp a a).2 rfl] at ho; cases ho
    · rw [cmpList_eq hcmp as bs, (hcmp a b).1 ho]
      simp
    · constructor
      · intro hc; cases hc
      · rintro ⟨⟩
        rw [(hcmp a a).2 rfl] at ho; cases ho

theorem cmpList_swap {cmp : α → α → Ordering}
    (hcmp : ∀ a b, (cmp a b).swap = cmp b a) :
    ∀ l1 l2 : List α, (cmpList cmp l1 l2).swap = cmpList cmp l2 l1
  | [], [] => by simp [cmpList]; rfl
  | [], _ :: _ => by simp [cmpList]; rfl
  | _ :: _, [] => by simp [cmpList]; rfl
  | a :: as, b :: bs => by
    simp only [cmpList]
    have hs := hcmp a b
    rcases ho : cmp a b with _ | _ | _ <;> rw [ho] at hs <;> rw [← hs] <;>
      simp only [Ordering.swap]
    exact cmpList_swap hcmp as bs

theorem cmpList_cons {cmp : α → α → Ordering} (a b : α) (as bs : List α) :
    cmpList cmp (a :: as) (b :: bs) =
      match cmp a b with
      | .eq => cmpList cmp as bs
      | o => o := rfl

theorem cmpList_lt_trans {cmp : α → α → Ordering} (h : PreCmp cmp) :
    ∀ l1 l2 l3 : List α, cmpList cmp l1 l2 = .lt → cmpList cmp l2 l3 = .lt →
      cmpList cmp l1 l3 = .lt
  | l1, [], _ => by
    intro h1 _
    exfalso
    cases l1 <;> simp [cmpList] at h1
  | _, _ :: _, [] => by
    intro _ h2
    exfalso
    simp [cmpList] at h2
  | [], _ :: _, _ :: _ => by
    intro _ _
    simp [cmpList]
  | a :: as, b :: bs, c :: cs => by
    intro h1 h2
    rw [cmpList_cons] at h1 h2 ⊢
    rcases hab : cmp a b with _ | _ | _ <;> rw [hab] at h1 <;> dsimp only at h1 <;>
      rcases hbc : cmp b c with _ | _ | _ <;> rw [hbc] at h2 <;> dsimp only at h2
    · rw [h.lt_trans a b c hab hbc]
    · rw [h.lt_eq a b c hab hbc]
    · cases h2
    · rw [h.eq_lt a b c hab hbc]
    · rw [h.eq_trans a b c hab hbc]
      dsimp only
      exact cmpList_lt_trans h as bs cs h1 h2
    · cases h2
    · cases h1
    · cases h1
    · cases h1

theorem lawCmpList {cmp : α → α → Ordering} (h : LawCmp cmp) :
    LawCmp (cmpList cmp) :=
  ⟨cmpList_eq h.eq_iff, cmpList_swap h.swap_eq,
   cmpList_lt_trans h.pre⟩

/-- The non-strict order induced by a comparator (`a ≤ b` iff not `a > b`),
used to model Rust's stable `sort`/`sort_by`. -/
def leOf (cmp : α → α → Ordering) (a b : α) : Prop := cmp a b ≠ .gt

instance leOf.decidable (cmp : α → α → Ordering) : DecidableRel (leOf cmp) :=
  fun a b => by unfold leOf; infer_instance

theorem gt_iff_swap_lt {cmp : α → α → Ordering} (h : PreCmp cmp) {a b : α} :
    cmp a b = .gt ↔ cmp b a = .lt := by
  constructor
  · intro hab
    have := h.swap_eq a b
    rw [hab] at this
    simpa [Ordering.swap] using this.symm
  · intro hba
    have := h.swap_eq b a
    rw [hba] at this
    simpa [Ordering.swap] using this.symm

theorem leOf_total {cmp : α → α → Ordering} (h : PreCmp cmp) :
    ∀ a b, leOf cmp a b ∨ leOf cmp b a := by
  intro a b
  unfold leOf
  rcases ho : cmp a b with _ | _ | _
  · left; simp
  · left; simp
  · right
    intro hba
    rw [(gt_iff_swap_lt h).1 hba] at ho
    cases ho

theorem leOf_trans {cmp : α → α → Ordering} (h : PreCmp cmp) :
    ∀ a b c, leOf cmp a b → leOf cmp b c → leOf cmp a c := by
  intro a b c hab hbc hac
  unfold leOf at hab hbc
  rcases h1 : cmp a b with _ | _ | _
  · rcases h2 : cmp b c with _ | _ | _
    · exact absurd hac (by rw [h.lt_trans a b c h1 h2]; simp)
    · exact absurd hac (by rw [h.lt_eq a b c h1 h2]; simp)
    · exact hbc h2
  · rcases h2 : cmp b c with _ | _ | _
    · exact absurd hac (by rw [h.eq_lt a b c h1 h2]; simp)
    · exact absurd hac (by rw [h.eq_trans a b c h1 h2]; simp)
    · exact hbc h2
  · exact hab h1

theorem leOf_isTotal {cmp : α → α → Ordering} (h : PreCmp cmp) :
    IsTotal α (leOf cmp) := ⟨leOf_total h⟩

theorem leOf_isTrans {cmp : α → α → Ordering} (h : PreCmp cmp) :
    IsTrans α (leOf cmp) := ⟨leOf_trans h⟩

/-- Model of Rust's stable `Vec::sort_by` (stable sorts agree pointwise,
so insertion sort is a faithful model of the std merge sort). -/
def sortRust (cmp : α → α → Ordering) (l : List α) : List α :=
  l.insertionSort (leOf cmp)

theorem sortRust_sorted {cmp : α → α → Ordering} (h : PreCmp cmp) (l : List α) :
    List.Sorted (leOf cmp) (sortRust cmp l) :=
  letI := leOf_isTotal h
  letI := leOf_isTrans h
  List.sorted_insertionSort _ l

theorem sortRust_perm (cmp : α → α → Ordering) (l : List α) :
    (sortRust cmp l).Perm l :=
  List.perm_insertionSort _ l

theorem sortRust_mem (cmp : α → α → Ordering) (l : List α) (x : α) :
    x ∈ sortRust cmp l ↔ x ∈ l :=
  (sortRust_perm cmp l).mem_iff

/-! ## Binary search

`slice::binary_search_by` from the Rust standard library (interval halving on
`[left, right)`); fuel-indexed so the kernel can evaluate it.  The Rust
documentation leaves unspecified which index is returned when several
elements compare equal; every theorem below relies only on the postcondition
that the element at the returned index compares equal to the probe. -/

def binarySearchGo (cmp : α → α → Ordering) (l : List α) (x : α) :
    Nat → Nat → Nat → Option Nat
  | 0, _, _ => none
  | fuel + 1, left, right =>
    if left < right then
      let mid := left + (right - left) / 2
      match l.get? mid with
      | none => none
      | some y =>
        match cmp y x with
        | .lt => binarySearchGo cmp l x fuel (mid + 1) right
        | .gt => binarySearchGo cmp l x fuel left mid
        | .eq => some mid
    else none

/-- Model of `slice::binary_search` (`self.binary_search_by(|p| p.cmp(x))`).
`none` plays the role of `Err(_)`: the source only ever pattern-matches on
success or maps the error away, never using the insertion index. -/
def binarySearch (cmp : α → α → Ordering) (l : List α) (x : α) : Option Nat :=
  binarySearchGo cmp l x (l.length + 1) 0 l.length

theorem binarySearchGo_some {cmp : α → α → Ordering} {l : List α} {x : α}
    {fuel left right i : Nat}
    (h : binarySearchGo cmp l x fuel left right = some i) :
    ∃ y, l.get? i = some y ∧ cmp y x = .eq := by
  induction fuel generalizing left right with
  | zero => simp [binarySearchGo] at h
  | succ n ih =>
    unfold binarySearchGo at h
    split at h
    · dsimp only at h
      rcases hg : l.get? (left + (right - left) / 2) with _ | y <;> rw [hg] at h <;>
        dsimp only at h
      · cases h
      · rcases hc : cmp y x with _ | _ | _ <;> rw [hc] at h <;> dsimp only at h
        · exact ih h
        · cases h
          exact ⟨y, hg, hc⟩
        · exact ih h
    · cases h

theorem binarySearch_some {cmp : α → α → Ordering} {l : List α} {x : α} {i : Nat}
    (h : binarySearch cmp l x = some i) :
    ∃ y, l.get? i = some y ∧ cmp y x = .eq :=
  binarySearchGo_some h

theorem binarySearch_some_lt {cmp : α → α → Ordering} {l : List α} {x : α} {i : Nat}
    (h : binarySearch cmp l x = some i) : i < l.length := by
  obtain ⟨y, hy, -⟩ := binarySearch_some h
  exact List.get?_eq_some.1 hy |>.1

theorem binarySearch_some_eq {cmp : α → α → Ordering} (hc : LawCmp cmp)
    {l : List α} {x : α} {i : Nat}
    (h : binarySearch cmp l x = some i) : l.get? i = some x := by
  obtain ⟨y, hy, he⟩ := binarySearch_some h
  rw [(hc.eq_iff y x).1 he] at hy
  exact hy

end MorphRS

namespace MorphRS

/-! ## Characters and strings -/

def cmpChar (a b : Char) : Ordering := cmpNat a.toNat b.toNat

theorem char_toNat_inj : ∀ x y : Char, x.toNat = y.toNat → x = y :=
  fun _ _ h => Char.eq_of_val_eq (UInt32.ext h)

theorem lawCmpChar : LawCmp cmpChar := lawCmpNat.comap Char.toNat char_toNat_inj

/-- Byte-lexicographic comparison of UTF-8 strings (on valid UTF-8 it equals
code-point lexicographic order), mirroring `str::cmp` / `String::cmp`. -/
def cmpStr : Str → Str → Ordering := cmpList cmpChar

theorem lawCmpStr : LawCmp cmpStr := lawCmpList lawCmpChar

/-- Char-wise lowercasing covering the ASCII and Cyrillic letters the
analyzer handles; on these alphabets it agrees with `str::to_lowercase`. -/
def lowerChar (c : Char) : Char :=
  if 'A' ≤ c ∧ c ≤ 'Z' then Char.ofNat (c.toNat + 32)
  else if 'А' ≤ c ∧ c ≤ 'Я' then Char.ofNat (c.toNat + 32)
  else if c = 'Ё' then 'ё'
  else c

/-- Model of `str::to_lowercase`. -/
def toLowercase (s : Str) : Str := s.map lowerChar

/-- Model of `str::replace('ё', "е")`. -/
def replaceYo (s : Str) : Str := s.map (fun c => if c = 'ё' then 'е' else c)

/-- UTF-8 byte length of a string, mirroring `str::len`. -/
def utf8Len (s : Str) : Nat := (s.map Char.utf8Size).sum

theorem utf8Len_append (a b : Str) :
    utf8Len (a ++ b) = utf8Len a + utf8Len b := by
  simp [utf8Len]

theorem utf8Len_eq_zero {s : Str} : utf8Len s = 0 ↔ s = [] := by
  cases s with
  | nil => simp [utf8Len]
  | cons c t =>
    simp only [utf8Len, List.map_cons, List.sum_cons]
    constructor
    · intro h
      exact absurd h (by have := Char.utf8Size_pos c; omega)
    · intro h; cases h

/-- Does `s` start with `pat`?  Model of `str::starts_with`. -/
def isPref : Str → Str → Bool
  | [], _ => true
  | _ :: _, [] => false
  | a :: as, b :: bs => a = b && isPref as bs

/-- Model of `str::contains` for string patterns. -/
def containsStr (pat : Str) : Str → Bool
  | [] => isPref pat []
  | c :: t => isPref pat (c :: t) || containsStr pat t

/-- `pat` occurs contiguously inside `hay`. -/
def SubStr (pat hay : Str) : Prop := ∃ l r, hay = l ++ pat ++ r

theorem isPref_iff {pat s : Str} : isPref pat s = true ↔ ∃ r, s = pat ++ r := by
  induction pat generalizing s with
  | nil => simp [isPref]
  | cons a as ih =>
    cases s with
    | nil => simp [isPref]
    | cons b bs =>
      simp only [isPref, Bool.and_eq_true, decide_eq_true_eq, ih, List.cons_append,
        List.cons.injEq]
      aesop

theorem containsStr_iff {pat hay : Str} : containsStr pat hay = true ↔ SubStr pat hay := by
  induction hay with
  | nil =>
    simp only [containsStr, isPref_iff, SubStr]
    constructor
    · rintro ⟨r, h⟩
      exact ⟨[], r, by simpa using h⟩
    · rintro ⟨l, r, h⟩
      have hl : l = [] := by
        cases l <;> simp_all
      subst hl
      exact ⟨r, by simpa using h⟩
  | cons c t ih =>
    simp only [containsStr, Bool.or_eq_true, isPref_iff, ih, SubStr]
    constructor
    · rintro (⟨r, h⟩ | ⟨l, r, h⟩)
      · exact ⟨[], r, by simpa using h⟩
      · exact ⟨c :: l, r, by simp [h]⟩
    · rintro ⟨l, r, h⟩
      cases l with
      | nil => exact Or.inl ⟨r, by simpa using h⟩
      | cons x xs =>
        simp only [List.cons_append, List.cons.injEq] at h
        exact Or.inr ⟨xs, r, h.2⟩

theorem SubStr.refl (s : Str) : SubStr s s := ⟨[], [], by simp⟩

theorem SubStr.nil (s : Str) : SubStr [] s := ⟨[], s, by simp⟩

theorem SubStr.trans {a b c : Str} (h1 : SubStr a b) (h2 : SubStr b c) :
    SubStr a c := by
  obtain ⟨l1, r1, rfl⟩ := h1
  obtain ⟨l2, r2, rfl⟩ := h2
  exact ⟨l2 ++ l1, r1 ++ r2, by simp⟩

theorem SubStr.dropLast {a b : Str} (h : SubStr a b) : SubStr a.dropLast b := by
  obtain ⟨l, r, rfl⟩ := h
  cases ha : a.reverse with
  | nil =>
    have : a = [] := by simpa using congrArg List.reverse ha
    subst this
    exact ⟨l, r, by simp⟩
  | cons x xs =>
    have : a = xs.reverse ++ [x] := by
      have := congrArg List.reverse ha
      simpa using this
    subst this
    refine ⟨l, x :: r, ?_⟩
    simp [List.dropLast_append_of_ne_nil]

theorem SubStr.utf8Len_le {a b : Str} (h : SubStr a b) : utf8Len a ≤ utf8Len b := by
  obtain ⟨l, r, rfl⟩ := h
  simp only [utf8Len_append]
  omega

theorem SubStr.eq_of_utf8Len_eq {a b : Str} (h : SubStr a b)
    (hl : utf8Len a = utf8Len b) : a = b := by
  obtain ⟨l, r, rfl⟩ := h
  rw [utf8Len_append, utf8Len_append] at hl
  have hl0 : utf8Len l = 0 := by omega
  have hr0 : utf8Len r = 0 := by omega
  rw [utf8Len_eq_zero.1 hl0, utf8Len_eq_zero.1 hr0]
  simp

/-- Model of `str::split_once` (split at the first occurrence of `pat`). -/
def splitOnce (pat : Str) : Str → Option (Str × Str)
  | [] => if isPref pat [] then some ([], []) else none
  | c :: t =>
    if isPref pat (c :: t) then some ([], (c :: t).drop pat.length)
    else (splitOnce pat t).map (fun p => (c :: p.1, p.2))

/-- Model of `str::strip_prefix` (`strip_prefix` in the source). -/
def stripPref (pat s : Str) : Option Str :=
  if isPref pat s then some (s.drop pat.length) else none

end MorphRS


namespace MorphRS

/-! ## Grammeme model (src/morph/grammemes.rs)

Each sub-enum mirrors the Rust declaration verbatim and in declaration
order; `toNat` gives the declaration index, so comparison by `toNat`
coincides with the derived Rust `Ord`; `fromNat` is its inverse, used only
to prove injectivity of the encoding. -/

inductive ParteSpeech
  | Noun
  | AdjectiveFull
  | AdjectiveShort
  | Comparative
  | Verb
  | Infinitive
  | ParticipleFull
  | ParticipleShort
  | Gerundive
  | Number
  | Adverb
  | NounPronoun
  | Predicative
  | Preposition
  | Conjunction
  | Particle
  | Interjection
deriving DecidableEq

def ParteSpeech.toNat : ParteSpeech → Nat
  | .Noun => 0
  | .AdjectiveFull => 1
  | .AdjectiveShort => 2
  | .Comparative => 3
  | .Verb => 4
  | .Infinitive => 5
  | .ParticipleFull => 6
  | .ParticipleShort => 7
  | .Gerundive => 8
  | .Number => 9
  | .Adverb => 10
  | .NounPronoun => 11
  | .Predicative => 12
  | .Preposition => 13
  | .Conjunction => 14
  | .Particle => 15
  | .Interjection => 16

def ParteSpeech.fromNat : Nat → ParteSpeech
  | 0 => .Noun
  | 1 => .AdjectiveFull
  | 2 => .AdjectiveShort
  | 3 => .Comparative
  | 4 => .Verb
  | 5 => .Infinitive
  | 6 => .ParticipleFull
  | 7 => .ParticipleShort
  | 8 => .Gerundive
  | 9 => .Number
  | 10 => .Adverb
  | 11 => .NounPronoun
  | 12 => .Predicative
  | 13 => .Preposition
  | 14 => .Conjunction
  | 15 => .Particle
  | 16 => .Interjection
  | _ => .Noun

inductive Animacy
  | Animate
  | Inanimate
  | Both
deriving DecidableEq

def Animacy.toNat : Animacy → Nat
  | .Animate => 0
  | .Inanimate => 1
  | .Both => 2

def Animacy.fromNat : Nat → Animacy
  | 0 => .Animate
  | 1 => .Inanimate
  | 2 => .Both
  | _ => .Animate

inductive Aspect
  | Perfetto
  | Imperfetto
deriving DecidableEq

def Aspect.toNat : Aspect → Nat
  | .Perfetto => 0
  | .Imperfetto => 1

def Aspect.fromNat : Nat → Aspect
  | 0 => .Perfetto
  | 1 => .Imperfetto
  | _ => .Perfetto

inductive Case
  | Fixed
  | Nominativus
  | Genetivus
  | Dativus
  | Accusativus
  | Ablativus
  | Locativus
  | Vocativus
  | Gen2
  | Acc2
  | Loc2
deriving DecidableEq

def Case.toNat : Case → Nat
  | .Fixed => 0
  | .Nominativus => 1
  | .Genetivus => 2
  | .Dativus => 3
  | .Accusativus => 4
  | .Ablativus => 5
  | .Locativus => 6
  | .Vocativus => 7
  | .Gen2 => 8
  | .Acc2 => 9
  | .Loc2 => 10

def Case.fromNat : Nat → Case
  | 0 => .Fixed
  | 1 => .Nominativus
  | 2 => .Genetivus
  | 3 => .Dativus
  | 4 => .Accusativus
  | 5 => .Ablativus
  | 6 => .Locativus
  | 7 => .Vocativus
  | 8 => .Gen2
  | 9 => .Acc2
  | 10 => .Loc2
  | _ => .Fixed

inductive Gender
  | Masculine
  | Feminine
  | Neutral
  | Common
  | CommonWavering
  | GenderNeutral
deriving DecidableEq

def Gender.toNat : Gender → Nat
  | .Masculine => 0
  | .Feminine => 1
  | .Neutral => 2
  | .Common => 3
  | .CommonWavering => 4
  | .GenderNeutral => 5

def Gender.fromNat : Nat → Gender
  | 0 => .Masculine
  | 1 => .Feminine
  | 2 => .Neutral
  | 3 => .Common
  | 4 => .CommonWavering
  | 5 => .GenderNeutral
  | _ => .Masculine

inductive Involvement
  | Incluso
  | Excluso
deriving DecidableEq

def Involvement.toNat : Involvement → Nat
  | .Incluso => 0
  | .Excluso => 1

def Involvement.fromNat : Nat → Involvement
  | 0 => .Incluso
  | 1 => .Excluso
  | _ => .Incluso

inductive Mood
  | Indicativo
  | Imperativo
deriving DecidableEq

def Mood.toNat : Mood → Nat
  | .Indicativo => 0
  | .Imperativo => 1

def Mood.fromNat : Nat → Mood
  | 0 => .Indicativo
  | 1 => .Imperativo
  | _ => .Indicativo

inductive Number
  | Singular
  | Plural
  | SingulariaTantum
  | PluraliaTantum
deriving DecidableEq

def Number.toNat : Number → Nat
  | .Singular => 0
  | .Plural => 1
  | .SingulariaTantum => 2
  | .PluraliaTantum => 3

def Number.fromNat : Nat → Number
  | 0 => .Singular
  | 1 => .Plural
  | 2 => .SingulariaTantum
  | 3 => .PluraliaTantum
  | _ => .Singular

inductive Transitivity
  | Transitive
  | Intransitive
deriving DecidableEq

def Transitivity.toNat : Transitivity → Nat
  | .Transitive => 0
  | .Intransitive => 1

def Transitivity.fromNat : Nat → Transitivity
  | 0 => .Transitive
  | 1 => .Intransitive
  | _ => .Transitive

inductive Tense
  | Past
  | Present
  | Future
deriving DecidableEq

def Tense.toNat : Tense → Nat
  | .Past => 0
  | .Present => 1
  | .Future => 2

def Tense.fromNat : Nat → Tense
  | 0 => .Past
  | 1 => .Present
  | 2 => .Future
  | _ => .Past

inductive Voice
  | Active
  | Passive
deriving DecidableEq

def Voice.toNat : Voice → Nat
  | .Active => 0
  | .Passive => 1

def Voice.fromNat : Nat → Voice
  | 0 => .Active
  | 1 => .Passive
  | _ => .Active

inductive Person
  | First
  | Second
  | Third
  | Impersonal
  | PossibleImpersonal
deriving DecidableEq

def Person.toNat : Person → Nat
  | .First => 0
  | .Second => 1
  | .Third => 2
  | .Impersonal => 3
  | .PossibleImpersonal => 4

def Person.fromNat : Nat → Person
  | 0 => .First
  | 1 => .Second
  | 2 => .Third
  | 3 => .Impersonal
  | 4 => .PossibleImpersonal
  | _ => .First

/-- `Other` sub-enum; the final Rust variant `Other::Other` is rendered
`OtherG` because Lean cannot declare a constructor shadowing its own type. -/
inductive Other
  | Abbreviation
  | Name
  | Surname
  | Patronymic
  | Geography
  | Organization
  | Trademark
  | PossibleSubstantive
  | Superior
  | Quality
  | Pronominal
  | Ordinal
  | Possessive
  | Questionable
  | Demonstrative
  | Anaphoric
  | Comparative
  | FormEY
  | FormOY
  | FormEJ
  | FormBE
  | FormENEN
  | FormIE
  | FormBI
  | ParticipleSH
  | Multiple
  | Reflessivo
  | Spoken
  | Slang
  | Archaic
  | Literary
  | Error
  | Distortion
  | Parenthesis
  | ImperfectiveParticiple
  | PossiblePredicative
  | Countable
  | Collection
  | AfterPreposition
  | PrepositionVariant
  | Initial
  | PossibleAdjective
  | Hypothetical
  | OtherG
deriving DecidableEq

def Other.toNat : Other → Nat
  | .Abbreviation => 0
  | .Name => 1
  | .Surname => 2
  | .Patronymic => 3
  | .Geography => 4
  | .Organization => 5
  | .Trademark => 6
  | .PossibleSubstantive => 7
  | .Superior => 8
  | .Quality => 9
  | .Pronominal => 10
  | .Ordinal => 11
  | .Possessive => 12
  | .Questionable => 13
  | .Demonstrative => 14
  | .Anaphoric => 15
  | .Comparative => 16
  | .FormEY => 17
  | .FormOY => 18
  | .FormEJ => 19
  | .FormBE => 20
  | .FormENEN => 21
  | .FormIE => 22
  | .FormBI => 23
  | .ParticipleSH => 24
  | .Multiple => 25
  | .Reflessivo => 26
  | .Spoken => 27
  | .Slang => 28
  | .Archaic => 29
  | .Literary => 30
  | .Error => 31
  | .Distortion => 32
  | .Parenthesis => 33
  | .ImperfectiveParticiple => 34
  | .PossiblePredicative => 35
  | .Countable => 36
  | .Collection => 37
  | .AfterPreposition => 38
  | .PrepositionVariant => 39
  | .Initial => 40
  | .PossibleAdjective => 41
  | .Hypothetical => 42
  | .OtherG => 43

def Other.fromNat : Nat → Other
  | 0 => .Abbreviation
  | 1 => .Name
  | 2 => .Surname
  | 3 => .Patronymic
  | 4 => .Geography
  | 5 => .Organization
  | 6 => .Trademark
  | 7 => .PossibleSubstantive
  | 8 => .Superior
  | 9 => .Quality
  | 10 => .Pronominal
  | 11 => .Ordinal
  | 12 => .Possessive
  | 13 => .Questionable
  | 14 => .Demonstrative
  | 15 => .Anaphoric
  | 16 => .Comparative
  | 17 => .FormEY
  | 18 => .FormOY
  | 19 => .FormEJ
  | 20 => .FormBE
  | 21 => .FormENEN
  | 22 => .FormIE
  | 23 => .FormBI
  | 24 => .ParticipleSH
  | 25 => .Multiple
  | 26 => .Reflessivo
  | 27 => .Spoken
  | 28 => .Slang
  | 29 => .Archaic
  | 30 => .Literary
  | 31 => .Error
  | 32 => .Distortion
  | 33 => .Parenthesis
  | 34 => .ImperfectiveParticiple
  | 35 => .PossiblePredicative
  | 36 => .Countable
  | 37 => .Collection
  | 38 => .AfterPreposition
  | 39 => .PrepositionVariant
  | 40 => .Initial
  | 41 => .PossibleAdjective
  | 42 => .Hypothetical
  | 43 => .OtherG
  | _ => .Abbreviation

/-- The grammeme catalogue: a tagged union of the sub-enums, in the
declaration order of the Rust `enum Grammem`. -/
inductive Grammem
  | ParteSpeech (v : MorphRS.ParteSpeech)
  | Animacy (v : MorphRS.Animacy)
  | Aspect (v : MorphRS.Aspect)
  | Case (v : MorphRS.Case)
  | Gender (v : MorphRS.Gender)
  | Involvement (v : MorphRS.Involvement)
  | Mood (v : MorphRS.Mood)
  | Number (v : MorphRS.Number)
  | Trans (v : MorphRS.Transitivity)
  | Tense (v : MorphRS.Tense)
  | Voice (v : MorphRS.Voice)
  | Person (v : MorphRS.Person)
  | Other (v : MorphRS.Other)
deriving DecidableEq

/-- Flat code of a grammeme; outer constructors occupy disjoint ranges
of 100, so code order is exactly the derived Rust `Ord` on `Grammem`
(outer declaration order first, then payload order). -/
def Grammem.code : Grammem → Nat
  | .ParteSpeech v => 0 + v.toNat
  | .Animacy v => 100 + v.toNat
  | .Aspect v => 200 + v.toNat
  | .Case v => 300 + v.toNat
  | .Gender v => 400 + v.toNat
  | .Involvement v => 500 + v.toNat
  | .Mood v => 600 + v.toNat
  | .Number v => 700 + v.toNat
  | .Trans v => 800 + v.toNat
  | .Tense v => 900 + v.toNat
  | .Voice v => 1000 + v.toNat
  | .Person v => 1100 + v.toNat
  | .Other v => 1200 + v.toNat

def Grammem.fromCode (n : Nat) : Grammem :=
  if n < 100 then .ParteSpeech (MorphRS.ParteSpeech.fromNat (n - 0))
  else   if n < 200 then .Animacy (MorphRS.Animacy.fromNat (n - 100))
  else   if n < 300 then .Aspect (MorphRS.Aspect.fromNat (n - 200))
  else   if n < 400 then .Case (MorphRS.Case.fromNat (n - 300))
  else   if n < 500 then .Gender (MorphRS.Gender.fromNat (n - 400))
  else   if n < 600 then .Involvement (MorphRS.Involvement.fromNat (n - 500))
  else   if n < 700 then .Mood (MorphRS.Mood.fromNat (n - 600))
  else   if n < 800 then .Number (MorphRS.Number.fromNat (n - 700))
  else   if n < 900 then .Trans (MorphRS.Transitivity.fromNat (n - 800))
  else   if n < 1000 then .Tense (MorphRS.Tense.fromNat (n - 900))
  else   if n < 1100 then .Voice (MorphRS.Voice.fromNat (n - 1000))
  else   if n < 1200 then .Person (MorphRS.Person.fromNat (n - 1100))
  else   .Other (MorphRS.Other.fromNat (n - 1200))


theorem Grammem.fromCode_code : ∀ g : Grammem, fromCode g.code = g := by
  intro g
  cases g <;> rename_i v <;> cases v <;> rfl

theorem Grammem.code_inj : ∀ a b : Grammem, a.code = b.code → a = b := by
  intro a b h
  rw [← fromCode_code a, ← fromCode_code b, h]

/-- Comparison of grammemes, equal to the derived Rust `Ord` on `Grammem`. -/
def cmpGrammem (a b : Grammem) : Ordering := cmpNat a.code b.code

theorem lawCmpGrammem : LawCmp cmpGrammem :=
  lawCmpNat.comap Grammem.code Grammem.code_inj

/-- A tag: the vector of grammemes of one parse (`type Tag` in the source). -/
abbrev Tag := List Grammem

/-- Comparison of tags = derived `Ord` of `Vec<Grammem>`. -/
def cmpTag : Tag → Tag → Ordering := cmpList cmpGrammem

theorem lawCmpTag : LawCmp cmpTag := lawCmpList lawCmpGrammem

/-- The UNPRODUCTIVE grammeme set (src/morph/mod.rs). -/
def UNPRODUCTIVE : List Grammem :=
  [.ParteSpeech .Number, .ParteSpeech .NounPronoun, .ParteSpeech .Predicative,
   .ParteSpeech .Preposition, .ParteSpeech .Conjunction, .ParteSpeech .Particle,
   .ParteSpeech .Interjection, .Other .Pronominal]

end MorphRS

namespace MorphRS

/-! ## Parse origin (`Form`, src/morph/grammemes.rs) -/

inductive FWord
  | Normal (id : Nat)
  | Inizio (id : Nat)
  | Different (id : Nat)
deriving DecidableEq

inductive FVanga
  | Normal
  | Inizio
  | Different
deriving DecidableEq

inductive Form
  | Word (w : FWord)
  | Vanga (v : FVanga)
deriving DecidableEq

/-- `Form::switch_vanga`. -/
def Form.switch_vanga : Form → Form
  | .Word (.Normal _) => .Vanga .Normal
  | .Word (.Inizio _) => .Vanga .Inizio
  | .Word (.Different _) => .Vanga .Different
  | v => v

/-- `Form::is_normal`. -/
def Form.is_normal : Form → Bool
  | .Word (.Normal _) => true
  | .Vanga .Normal => true
  | _ => false

/-- `Form::is_inizio`. -/
def Form.is_inizio : Form → Bool
  | .Word (.Inizio _) => true
  | .Vanga .Inizio => true
  | _ => false

/-- `Form::id`. -/
def Form.id : Form → Option Nat
  | .Word (.Normal i) => some i
  | .Word (.Inizio i) => some i
  | .Word (.Different i) => some i
  | _ => none

/-- Sort key of a `Form`: (variant rank, payload id).  Lexicographic order on
the key is exactly the derived Rust `Ord` on `Form` (variant declaration
order first, payload next). -/
def Form.code : Form → Nat × Nat
  | .Word (.Normal i) => (0, i)
  | .Word (.Inizio i) => (1, i)
  | .Word (.Different i) => (2, i)
  | .Vanga .Normal => (3, 0)
  | .Vanga .Inizio => (4, 0)
  | .Vanga .Different => (5, 0)

def Form.fromCode : Nat × Nat → Form
  | (0, i) => .Word (.Normal i)
  | (1, i) => .Word (.Inizio i)
  | (2, i) => .Word (.Different i)
  | (3, _) => .Vanga .Normal
  | (4, _) => .Vanga .Inizio
  | _ => .Vanga .Different

theorem Form.fromCode_code_form : ∀ f : Form, fromCode f.code = f := by
  intro f
  cases f <;> rename_i x <;> cases x <;> rfl

theorem Form.code_inj_form : ∀ a b : Form, a.code = b.code → a = b := by
  intro a b h
  rw [← fromCode_code_form a, ← fromCode_code_form b, h]

def Form.key (f : Form) : List Nat := [f.code.1, f.code.2]

theorem Form.key_inj_form : ∀ a b : Form, a.key = b.key → a = b := by
  intro a b h
  simp only [Form.key, List.cons.injEq, and_true] at h
  exact code_inj_form a b (Prod.ext h.1 h.2)

/-- Comparison of `Form`, equal to the derived Rust `Ord`. -/
def cmpForm (a b : Form) : Ordering := cmpList cmpNat a.key b.key

theorem lawCmpForm : LawCmp cmpForm :=
  (lawCmpList lawCmpNat).comap Form.key Form.key_inj_form

/-! ## `Parse` (src/analyzer/mod.rs) -/

/-- One parse of a word: origin form, tag index, lemma index, lemma-row
index (`struct Parse`). -/
structure Parse where
  form : Form
  tag : Nat
  normal_form : Nat
  lemma_row_id : Nat
deriving DecidableEq

/-- Sort key of a `Parse`: the derived Rust `Ord` compares the fields
lexicographically in declaration order (`form`, `tag`, `normal_form`,
`lemma_row_id`); on the key that is list-lexicographic order. -/
def Parse.key (p : Parse) : List Nat :=
  [p.form.code.1, p.form.code.2, p.tag, p.normal_form, p.lemma_row_id]

theorem Parse.key_inj_parse : ∀ a b : Parse, a.key = b.key → a = b := by
  intro a b h
  simp only [Parse.key, List.cons.injEq, and_true] at h
  obtain ⟨h1, h2, h3, h4, h5⟩ := h
  cases a; cases b
  simp only [Parse.mk.injEq]
  exact ⟨Form.code_inj_form _ _ (Prod.ext h1 h2), h3, h4, h5⟩

/-- Comparison of `Parse`, equal to the derived Rust `Ord`. -/
def cmpParse (a b : Parse) : Ordering := cmpList cmpNat a.key b.key

theorem lawCmpParse : LawCmp cmpParse :=
  (lawCmpList lawCmpNat).comap Parse.key Parse.key_inj_parse

/-- Comparison of parse lists (`Vec<Parse>`), derived Rust `Ord`. -/
def cmpParseList : List Parse → List Parse → Ordering := cmpList cmpParse

theorem lawCmpParseList : LawCmp cmpParseList := lawCmpList lawCmpParse

/-- Comparison of lemma rows (`Vec<u32>`), derived Rust `Ord`. -/
def cmpRow : List Nat → List Nat → Ordering := cmpList cmpNat

theorem lawCmpRow : LawCmp cmpRow := lawCmpList lawCmpNat

/-! ## OpenCorpora model (src/opencorpora/dictionary.rs) -/

structure Gram where
  v : Grammem
deriving DecidableEq

structure NormalForm where
  text : Str
  gram : Option (List Gram)
deriving DecidableEq

structure GramWord where
  text : Str
  gram : Option (List Gram)
deriving DecidableEq

structure Lemma where
  id : Nat
  normal_form : NormalForm
  forms : Option (List GramWord)
deriving DecidableEq

/-- An inter-lemma link `{ type, from, to }`; the source names the fields
`type_id`, `lemma_id` (= from) and `variant` (= to). -/
structure Link where
  type_id : Nat
  lemma_id : Nat
  variant : Nat
deriving DecidableEq

/-! ## Link resolver (`Links::collect_lemmas`, src/analyzer/dictionary.rs) -/

/-- `Links::EXCLUDED_LINKS`. -/
def EXCLUDED_LINKS : List Nat := [7, 8, 9, 11, 16, 18, 21, 23, 27]

/-- `Links::DOUBLE_FROM`. -/
def DOUBLE_FROM : List Nat := [6, 22]

/-- The resolver's normalization map `normal lemma id ↦ variant ids`,
modelled as an insertion-ordered association list (the source uses a
`HashMap`, whose iteration order never influences the compiled artifact:
see the sorting steps in `from_opencorpora`). -/
abbrev LinkMap := List (Nat × List Nat)

def mapGetLC (m : LinkMap) (k : Nat) : Option (List Nat) :=
  (m.find? (fun p => p.1 == k)).map (·.2)

def mapSetLC (m : LinkMap) (k : Nat) (v : List Nat) : LinkMap :=
  match m with
  | [] => [(k, v)]
  | p :: rest => if p.1 = k then (k, v) :: rest else p :: mapSetLC rest k v

/-- `if !variations.contains(&x) { variations.push(x) }`. -/
def pushAbsent (l : List Nat) (x : Nat) : List Nat :=
  if x ∈ l then l else l ++ [x]

/-- `link_connotation.entry(k).or_default()` followed by a guarded push. -/
def attachVariant (m : LinkMap) (k : Nat) (x : Nat) : LinkMap :=
  mapSetLC m k (pushAbsent ((mapGetLC m k).getD []) x)

/-- One step of link resolution for a non-excluded link, exactly as the
specification describes it: double-hop types `{6, 22}` first look for an
outer link whose `to` equals this link's `from` (searching the full original
link list) and attach both endpoints to the outer link's lemma; every other
link attaches `to` under `from`. -/
def resolveStep (search : List Link) (m : LinkMap) (l : Link) : LinkMap :=
  if l.type_id ∈ DOUBLE_FROM then
    match search.find? (fun l2 => l2.variant == l.lemma_id) with
    | some real =>
      attachVariant (attachVariant m real.lemma_id l.lemma_id) real.lemma_id l.variant
    | none => attachVariant m l.lemma_id l.variant
  else attachVariant m l.lemma_id l.variant

/-- The loop body of `collect_lemmas`, translated directly from the source
(`continue` on excluded types; the double-hop search runs over the cloned
full list `links`). -/
def collectLemmasGo (search : List Link) : List Link → LinkMap → LinkMap
  | [], m => m
  | l :: rest, m =>
    if l.type_id ∈ EXCLUDED_LINKS then collectLemmasGo search rest m
    else if l.type_id ∈ DOUBLE_FROM then
      match search.find? (fun l2 => l2.variant == l.lemma_id) with
      | some real =>
        collectLemmasGo search rest
          (attachVariant (attachVariant m real.lemma_id l.lemma_id) real.lemma_id l.variant)
      | none => collectLemmasGo search rest (attachVariant m l.lemma_id l.variant)
    else collectLemmasGo search rest (attachVariant m l.lemma_id l.variant)

/-- `Links::collect_lemmas`. -/
def collectLemmas (links : List Link) : LinkMap :=
  collectLemmasGo links links []

end MorphRS

namespace MorphRS

/-! ## Compiler errors (src/errors.rs, `DictionaryErr`)

Only the pure constructors are modelled; `Outdir`/`FstBuild` wrap file-system
and fst-writer failures of the I/O layer, which the shallow embedding leaves
out. -/

inductive Cycle
  | Normal
  | Variant
  | Lost
deriving DecidableEq

inductive DictionaryErr
  | LostLemmaId (id : Nat) (c : Cycle)
  | BinaryTag (t : Tag)
  | BinaryTagVanga (t : Tag)
  | BinaryLemma (s : Str)
  | BinaryRow (r : List Nat)
  | BinaryParse (p : List Parse)
  | LostFirstGrammemes (s : Str)
  | EmptyVanga
  | NoForms (id : Nat)
  | NoFormsVanga (s : Str)
  | Stem (s : Str)
deriving DecidableEq

/-! ## Intermediate structures of the compiler (src/analyzer/dictionary.rs) -/

/-- `ParseIntermediate`. -/
structure ParseIntermediate where
  tag : Tag
  form : Form
  normal_form : Str
  opcorp_lemma : List Nat
deriving DecidableEq

/-- The `BTreeMap<String, Vec<ParseIntermediate>>` word map, modelled as an
association list sorted by key (BTreeMap iteration order). -/
abbrev WordMap := List (Str × List ParseIntermediate)

/-- `word_map.entry(k).or_default().push(pi)` keeping keys sorted. -/
def wmEntryPush : WordMap → Str → ParseIntermediate → WordMap
  | [], k, pi => [(k, [pi])]
  | (k', v) :: rest, k, pi =>
    match cmpStr k k' with
    | .lt => (k, [pi]) :: (k', v) :: rest
    | .eq => (k', v ++ [pi]) :: rest
    | .gt => (k', v) :: wmEntryPush rest k pi

/-- `HashSet<Tag>` insert (order of the model list is first-insertion order;
the set is sorted before use, so the order is immaterial). -/
def setInsert (s : List Tag) (t : Tag) : List Tag :=
  if t ∈ s then s else s ++ [t]

/-- `Lemmatization`. -/
inductive Lemmatization
  | Normal
  | Inizio

/-- `LemmaDict` (the per-id view of a lemma stored in `lemmata_map`). -/
structure LemmaDict where
  normal_form : NormalForm
  variants : Option (List GramWord)

/-- `LemmaDict::first_tags` (src/morph/mod.rs). -/
def LemmaDict.first_tags (ld : LemmaDict) : Except DictionaryErr Tag :=
  match ld.normal_form.gram with
  | none => .error (.LostFirstGrammemes ld.normal_form.text)
  | some gram => .ok (gram.map (·.v))

/-- `LemmaDict::forms` (src/morph/mod.rs): each form yields its surface text
and its own grammemes (empty tag when absent). -/
def LemmaDict.formsList (forms : List GramWord) : List (Str × Tag) :=
  forms.map (fun gw => (gw.text, (gw.gram.getD []).map (·.v)))

/-- `LemmaDict::to_word_tags`: record the tag in the tag set and push the
parse intermediate under the lowercased surface word. -/
def to_word_tags (grammemes : Tag) (wm : WordMap) (ts : List Tag)
    (word normal_form : Str) (form : Form) (lemma_row : List Nat) :
    WordMap × List Tag :=
  (wmEntryPush wm (toLowercase word)
    ⟨grammemes, form, normal_form, lemma_row⟩, setInsert ts grammemes)

/-- One iteration of the tail loop of `collect_word_tags` (a form beyond the
first: `Form::Word(FWord::Different)`). -/
def collect_rest_step (lemma_id : Nat) (normalization : Option Str)
    (normal_form : Str) (inizio_grammemes : Tag) (lemma_row : List Nat)
    (acc : WordMap × List Tag × List Str) (p : Str × Tag) :
    WordMap × List Tag × List Str :=
  let g := p.2 ++ inizio_grammemes
  let vw := acc.2.2 ++ [replaceYo p.1]
  let r :=
    to_word_tags g acc.1 acc.2.1 p.1 (normalization.getD normal_form)
      (.Word (.Different lemma_id)) lemma_row
  (r.1, r.2, vw)

/-- `LemmaDict::collect_word_tags`. -/
def collect_word_tags (ld : LemmaDict) (lemma_id : Nat) (first : Lemmatization)
    (normalization : Option Str) (wm : WordMap) (ts : List Tag)
    (lemma_row : List Nat) (vw : List Str) :
    Except DictionaryErr (WordMap × List Tag × List Str) := do
  let inizio_grammemes ← ld.first_tags
  match ld.variants.filter (fun v => !v.isEmpty) with
  | none =>
    let word := ld.normal_form.text
    let vw := vw ++ [replaceYo word]
    let form : Form := match first with
      | .Normal => .Word (.Normal lemma_id)
      | .Inizio => .Word (.Inizio lemma_id)
    let r :=
      to_word_tags inizio_grammemes wm ts word (normalization.getD word) form lemma_row
    pure (r.1, r.2, vw)
  | some forms =>
    let normal_form := ld.normal_form.text
    let vw := vw ++ [replaceYo normal_form]
    match LemmaDict.formsList forms with
    | [] => .error (.NoForms lemma_id)
    | (first_word, fg) :: rest =>
      let fg := fg ++ inizio_grammemes
      let vw := vw ++ [replaceYo first_word]
      let form : Form := match first with
        | .Normal => .Word (.Normal lemma_id)
        | .Inizio => .Word (.Inizio lemma_id)
      let r :=
        to_word_tags fg wm ts first_word (normalization.getD normal_form) form lemma_row
      pure (rest.foldl
        (collect_rest_step lemma_id normalization normal_form inizio_grammemes lemma_row)
        (r.1, r.2, vw))

/-! ## Vanga extraction (src/morph/vanga.rs) -/

/-- `VangaItem`; the source field `postfix` is called `pfx` here. -/
structure VangaItem where
  pfx : Str
  form : Form
  tag : List Nat
deriving DecidableEq

/-- `Vanga`; the source field `postfix` (the item vector) is called `pfxs`. -/
structure Vanga where
  popularity : Nat
  pfxs : List VangaItem
deriving DecidableEq

/-- `VangaItemIntermediate`; the source field `postfix` is called `pfx`. -/
structure VangaItemIntermediate where
  pfx : Str
  form : Form
  tag : List Tag
deriving DecidableEq

/-- `VangaIntermediate`: postfix-signature ↦ popularity
(a `HashMap` in the source, modelled as an insertion-ordered association
list; popularity counting is commutative, and the final vanga list is sorted
by popularity, so the iteration order only permutes equal-popularity ties,
which no claim depends on). -/
abbrev VangaIntermediate := List (List VangaItemIntermediate × Nat)

/-- `stems.entry(items).or_insert(0); *popularity += 1`. -/
def vangaBump : VangaIntermediate → List VangaItemIntermediate → VangaIntermediate
  | [], items => [(items, 1)]
  | (k, n) :: rest, items =>
    if k = items then (k, n + 1) :: rest else (k, n) :: vangaBump rest items

/-- `VangaItemIntermediate::parse_vanga_item`. -/
def parse_vanga_item (stem to_vanga_item : Str) (tag : Tag) (form : Form) :
    Except DictionaryErr (Option VangaItemIntermediate) :=
  let tag1 := tag.filter (fun g => match g with | .Other _ => false | _ => true)
  let tag2 := sortRust cmpGrammem tag1
  let word := replaceYo to_vanga_item
  match splitOnce stem word with
  | none => .error (.Stem stem)
  | some p =>
    let count := p.2.length
    if 0 < count ∧ count ≤ 5 then
      .ok (some ⟨p.2, form, [tag2]⟩)
    else .ok none

/-- `VangaVariant`. -/
structure VangaVariant where
  word : Str
  form : FVanga
  tag : Tag

/-- `LemmaVanga`. -/
structure LemmaVanga where
  variants : List VangaVariant

/-- `LemmaVanga::first_tags` (src/morph/mod.rs). -/
def LemmaVanga.first_tags (lv : LemmaVanga) : Except DictionaryErr Tag :=
  match lv.variants.head? with
  | none => .error .EmptyVanga
  | some v => .ok v.tag

/-- `LemmaVanga::push_normal`. -/
def LemmaVanga.push_normal (normal : LemmaDict) : Except DictionaryErr LemmaVanga := do
  let normal_grammemes ← normal.first_tags
  match normal.variants.filter (fun v => !v.isEmpty) with
  | none => pure ⟨[⟨normal.normal_form.text, .Normal, normal_grammemes⟩]⟩
  | some variants =>
    match LemmaDict.formsList variants with
    | [] => .error (.NoFormsVanga normal.normal_form.text)
    | (first_word, fg) :: rest =>
      pure ⟨⟨first_word, .Normal, fg ++ normal_grammemes⟩ ::
        rest.map (fun p => ⟨p.1, .Different, p.2 ++ normal_grammemes⟩)⟩

/-- `LemmaVanga::update_form`. -/
def LemmaVanga.update_form (lv : LemmaVanga) (another : LemmaDict) :
    Except DictionaryErr LemmaVanga := do
  let inflect_grammemes ← another.first_tags
  match another.variants.filter (fun v => !v.isEmpty) with
  | none => pure ⟨lv.variants ++ [⟨another.normal_form.text, .Inizio, inflect_grammemes⟩]⟩
  | some vars =>
    match LemmaDict.formsList vars with
    | [] => .error (.NoFormsVanga another.normal_form.text)
    | (first_word, fg) :: rest =>
      pure ⟨lv.variants ++ ⟨first_word, .Inizio, fg ++ inflect_grammemes⟩ ::
        rest.map (fun p => ⟨p.1, .Different, p.2 ++ inflect_grammemes⟩)⟩

/-- `longest_common_substring`, inner loop over `&data[1..]` for a fixed
grown candidate `sub`: on a miss the candidate is cleared and the best match
possibly shrunk by one character (the `pop` repair), on a full pass the best
match may have been replaced by the longer candidate. -/
def lcsScanWords (sub best : Str) : List Str → Str × Str
  | [] => (sub, best)
  | w :: ws =>
    if containsStr sub w then
      let best' := if utf8Len best < utf8Len sub then sub else best
      lcsScanWords sub best' ws
    else
      let best' :=
        if utf8Len sub = utf8Len best ∧ containsStr best sub = true
        then best.dropLast else best
      ([], best')

/-- `longest_common_substring`, outer loop over the characters of `data[0]`. -/
def lcsOuter (words : List Str) : List Char → Str → Str → Str
  | [], _, best => best
  | c :: cs, sub, best =>
    let r := lcsScanWords (sub ++ [c]) best words
    lcsOuter words cs r.1 r.2

/-- `longest_common_substring` (src/morph/vanga.rs). -/
def longest_common_substring (data : List Str) : Str :=
  match data with
  | [] => []
  | [x] => x
  | base :: rest => lcsOuter rest base [] []

/-- `LemmaVanga::collect_vangas`. -/
def LemmaVanga.collect_vangas (lv : LemmaVanga) (stems : VangaIntermediate)
    (words : List Str) : Except DictionaryErr VangaIntermediate := do
  let stem := toLowercase (longest_common_substring words)
  let items ←
    if stem.length < 3 then pure ([] : List VangaItemIntermediate)
    else do
      let ft ← lv.first_tags
      if ft.any (fun g => g ∈ UNPRODUCTIVE) then pure []
      else
        (lv.variants.filter (fun vv => !vv.tag.isEmpty)).foldlM
          (fun acc vv => do
            match ← parse_vanga_item stem vv.word vv.tag (.Vanga vv.form) with
            | some it => pure (acc ++ [it])
            | none => pure acc) []
  if items.isEmpty then pure stems else pure (vangaBump stems items)

/-- Descending-popularity comparator
(`sort_by(|a, b| b.popularity.cmp(&a.popularity))`). -/
def cmpVangaPop (a b : Vanga) : Ordering := cmpNat b.popularity a.popularity

theorem preCmpVangaPop : PreCmp cmpVangaPop :=
  (lawCmpNat.pre.comap_pre Vanga.popularity).flip

/-- `Vanga::parse_vangas` (src/morph/vanga.rs). -/
def Vanga.parse_vangas (stems : VangaIntermediate) (all_tags : List Tag) :
    Except DictionaryErr (List Vanga) := do
  let vangas ← stems.foldlM
    (fun (acc : List Vanga) (p : List VangaItemIntermediate × Nat) => do
      if p.2 < 3 then pure acc
      else do
        let items ← p.1.foldlM
          (fun (iacc : List VangaItem) it => do
            let tagSorted := sortRust cmpTag it.tag
            let idxs ← tagSorted.foldlM
              (fun (tacc : List Nat) t => do
                match binarySearch cmpTag all_tags t with
                | some i => pure (tacc ++ [i])
                | none => Except.error (.BinaryTagVanga t)) []
            pure (iacc ++ [VangaItem.mk it.pfx it.form idxs])) []
        pure (acc ++ [Vanga.mk p.2 items])) []
  pure (sortRust cmpVangaPop vangas)

/-! ## `Dictionary::from_opencorpora` (src/analyzer/dictionary.rs) -/

/-- The compiled dictionary (fields of `struct Dictionary`; `meta` carries
only version/revision/language strings and is omitted). -/
structure Dictionary where
  word_parses : List (List Parse)
  tags : List Tag
  lemmas : List Str
  paradigms : List Vanga
  lemmas_rows : List (List Nat)
deriving DecidableEq

/-- The on-disk FST map, modelled by its insertion sequence (strictly
increasing keys, as enforced by `fst::MapBuilder`). -/
abbrev Fst := List (Str × Nat)

/-- `lemmata_map` lookup: `HashMap::insert` per lemma means the last lemma
with a given id wins. -/
def lemmataFind (lemmata : List Lemma) (i : Nat) : Option LemmaDict :=
  (lemmata.reverse.find? (fun l => l.id == i)).map (fun l => ⟨l.normal_form, l.forms⟩)

/-- `BTreeSet<u64>` insert (sorted, duplicate-free). -/
def btsInsert : List Nat → Nat → List Nat
  | [], x => [x]
  | y :: t, x =>
    if x < y then x :: y :: t
    else if x = y then y :: t
    else y :: btsInsert t x

/-- `all_lemmas`: the set of every lemma id. -/
def allLemmasInit (lemmata : List Lemma) : List Nat :=
  lemmata.foldl (fun s l => btsInsert s l.id) []

/-- Accumulated state of the two compilation passes. -/
structure BuildSt where
  word_map : WordMap
  tags : List Tag
  lemmas : List Str
  lemmas_rows : List (List Nat)
  paradigms : VangaIntermediate
  all_lemmas : List Nat

/-- One cluster `(normal lemma id, variant ids)` of the main loop of
`from_opencorpora`. -/
def processCluster (lemmata : List Lemma) (st : BuildSt) (cluster : Nat × List Nat) :
    Except DictionaryErr BuildSt := do
  let lemma_row := sortRust cmpNat (cluster.1 :: cluster.2)
  let vw : List Str := []
  match lemmataFind lemmata cluster.1 with
  | none => .error (.LostLemmaId cluster.1 .Normal)
  | some normal => do
    let all_lemmas := st.all_lemmas.erase cluster.1
    let normal_form := normal.normal_form.text
    let lemmas := st.lemmas ++ [normal_form]
    let (wm, ts, vw) ←
      collect_word_tags normal cluster.1 .Normal none st.word_map st.tags lemma_row vw
    let lv ← LemmaVanga.push_normal normal
    let acc ← cluster.2.foldlM
      (fun (acc : WordMap × List Tag × List Str × LemmaVanga × List Nat) variant_id => do
        let (wm, ts, vw, lv, al) := acc
        match lemmataFind lemmata variant_id with
        | none => Except.error (.LostLemmaId variant_id .Variant)
        | some lem => do
          let al := al.erase variant_id
          let (wm, ts, vw) ←
            collect_word_tags lem variant_id .Inizio (some normal_form) wm ts lemma_row vw
          let lv ← lv.update_form lem
          pure (wm, ts, vw, lv, al)) (wm, ts, vw, lv, all_lemmas)
    let (wm, ts, vw, lv, all_lemmas) := acc
    let lemmas_rows := st.lemmas_rows ++ [lemma_row]
    let paradigms ← lv.collect_vangas st.paradigms vw
    pure { word_map := wm, tags := ts, lemmas := lemmas, lemmas_rows := lemmas_rows,
           paradigms := paradigms, all_lemmas := all_lemmas }

/-- One leftover lemma (in no surviving link) of the second loop of
`from_opencorpora`. -/
def processLost (lemmata : List Lemma) (st : BuildSt) (lost_id : Nat) :
    Except DictionaryErr BuildSt := do
  match lemmataFind lemmata lost_id with
  | none => .error (.LostLemmaId lost_id .Lost)
  | some lem => do
    let vw : List Str := []
    let normal_form := lem.normal_form.text
    let lemmas := st.lemmas ++ [normal_form]
    let (wm, ts, vw) ←
      collect_word_tags lem lost_id .Normal none st.word_map st.tags [lost_id] vw
    let lv ← LemmaVanga.push_normal lem
    let lemmas_rows := st.lemmas_rows ++ [[lost_id]]
    let paradigms ← lv.collect_vangas st.paradigms vw
    pure ⟨wm, ts, lemmas, lemmas_rows, paradigms, st.all_lemmas⟩

/-- Both enumeration passes of `from_opencorpora` (the cluster loop over the
resolved links, then the loop over leftover lemmas). -/
def buildState (lemmata : List Lemma) (links : List Link) :
    Except DictionaryErr BuildSt := do
  let link_connotation := collectLemmas links
  let st0 : BuildSt := ⟨[], [], [], [], [], allLemmasInit lemmata⟩
  let st ← link_connotation.foldlM (processCluster lemmata) st0
  st.all_lemmas.foldlM (processLost lemmata) st

/-- Interning one word's parse list: sort each tag, replace the three
components by their indices in the sorted tables, sort the parses. -/
def internParses (tags : List Tag) (lemmas : List Str) (rows : List (List Nat))
    (v : List ParseIntermediate) : Except DictionaryErr (List Parse) := do
  let parses ← v.foldlM
    (fun (acc : List Parse) pi => do
      let tagS := sortRust cmpGrammem pi.tag
      let ti ← match binarySearch cmpTag tags tagS with
        | some i => pure i
        | none => Except.error (.BinaryTag tagS)
      let ni ← match binarySearch cmpStr lemmas pi.normal_form with
        | some i => pure i
        | none => Except.error (.BinaryLemma pi.normal_form)
      let ri ← match binarySearch cmpRow rows pi.opcorp_lemma with
        | some i => pure i
        | none => Except.error (.BinaryRow pi.opcorp_lemma)
      pure (acc ++ [Parse.mk pi.form ti ni ri])) []
  pure (sortRust cmpParse parses)

/-- The `BTreeMap<String, Vec<Parse>>` of final parse lists per key. -/
abbrev WordParsesMap := List (Str × List Parse)

/-- `BTreeMap::insert` (overwrites an existing key), keys kept sorted. -/
def wpInsert : WordParsesMap → Str → List Parse → WordParsesMap
  | [], k, v => [(k, v)]
  | (k', v') :: rest, k, v =>
    match cmpStr k k' with
    | .lt => (k, v) :: (k', v') :: rest
    | .eq => (k, v) :: rest
    | .gt => (k', v') :: wpInsert rest k v

/-- The assembly loop of `from_opencorpora` over the word map: intern each
word's parses, collect them in `vec_parse` (one entry per word-map key) and
in the `word_parses` BTreeMap, inserting the `ё→е` substituted key when the
word contains `ё`. -/
def buildWordParses (tags : List Tag) (lemmas : List Str) (rows : List (List Nat))
    (wm : WordMap) : Except DictionaryErr (List (List Parse) × WordParsesMap) := do
  wm.foldlM
    (fun (acc : List (List Parse) × WordParsesMap) kv => do
      let parses ← internParses tags lemmas rows kv.2
      let vec_parse := acc.1 ++ [parses]
      let wp := wpInsert acc.2 kv.1 parses
      let wp := if 'ё' ∈ kv.1 then wpInsert wp (replaceYo kv.1) parses else wp
      pure (vec_parse, wp)) ([], [])

/-- The FST-building loop: every `word_parses` entry is inserted with the
index of its parse list in the sorted `vec_parse`. -/
def buildFst (vec_parse : List (List Parse)) (wp : WordParsesMap) :
    Except DictionaryErr Fst :=
  wp.foldlM
    (fun acc kv => do
      match binarySearch cmpParseList vec_parse kv.2 with
      | some i => pure (acc ++ [(kv.1, i)])
      | none => Except.error (.BinaryParse kv.2)) []

/-- `Dictionary::from_opencorpora` (pure part: the FST is returned as its
key/value insertion sequence instead of being written to disk, and `meta`
is omitted). -/
def from_opencorpora (lemmata : List Lemma) (links : List Link) :
    Except DictionaryErr (Dictionary × Fst) := do
  let st ← buildState lemmata links
  let tags := sortRust cmpTag (st.tags.map (sortRust cmpGrammem))
  let lemmas := sortRust cmpStr st.lemmas
  let rows := sortRust cmpRow st.lemmas_rows
  let bw ← buildWordParses tags lemmas rows st.word_map
  let vec_parse := sortRust cmpParseList bw.1
  let fst ← buildFst vec_parse bw.2
  let paradigms ← Vanga.parse_vangas st.paradigms tags
  pure ({ word_parses := vec_parse, tags := tags, lemmas := lemmas,
          paradigms := paradigms, lemmas_rows := rows }, fst)

end MorphRS

namespace MorphRS

/-! ## Analyzer data (src/lib.rs, src/analyzer/mod.rs) -/

/-- `MorphAnalyzer` (the fst buffer is modelled by the key/value list of the
built map, in key order). -/
structure MorphAnalyzer where
  fst : Fst
  word_parses : List (List Parse)
  tags : List Tag
  lemmas : List Str
  paradigms : List Vanga
  lemmas_rows : List (List Nat)

/-- `MorphAnalyzer::from_dictionary` over the pure compiler output. -/
def MorphAnalyzer.from_dictionary (d : Dictionary) (fst : Fst) : MorphAnalyzer :=
  ⟨fst, d.word_parses, d.tags, d.lemmas, d.paradigms, d.lemmas_rows⟩

/-- `fst::Map::get`. -/
def fstGet (a : MorphAnalyzer) (w : Str) : Option Nat :=
  (a.fst.find? (fun p => p.1 == w)).map (·.2)

/-! ## Query errors (src/errors.rs) -/

inductive Bound
  | WordParses
  | Tags
  | Lemmas
  | Alphabet
  | LemmasRow
deriving DecidableEq

inductive DeclensionErr
  | EmptyWord
  | BinaryChar (c : Char)
  | OutOfBound (idx : Nat) (vec : Bound)
deriving DecidableEq

inductive ParseErr
  | OutOfBound (idx : Nat) (vec : Bound)
  | LostNormalForm (w : Str)
  | LostLemmaId (w : Str)
  | LostLemmasRow (n : Nat)
  | LostParse (t : Tag)
  | FutureRelease
  | NoPos (w : Str)
  | Declension (e : DeclensionErr)
  | BinaryTag (t : Tag)
deriving DecidableEq

/-! ## Result types (src/lib.rs) -/

/-- `Vangovanie` method kinds. -/
inductive Vangovanie
  | KnownPrefix (p : Str)
  | UnknownPrefix (p : Str)
  | Postfix
deriving DecidableEq

inductive Method
  | Dictionary
  | Vangovanie (v : Vangovanie)
deriving DecidableEq

structure ParsedWord where
  word : Str
  tags : Tag
  normal_form : Str
  method : Method
deriving DecidableEq

structure NormalizedWord where
  normal_word : Str
  tags : Tag
  method : Method
deriving DecidableEq

structure InflectWord where
  inflect_form : Str
  tags : Tag
  normal_form : Str
  method : Method
deriving DecidableEq

/-- Keys for the derived `Ord` on `Vangovanie`/`Method`/`ParsedWord`/
`NormalizedWord` (fields in declaration order). -/
def Vangovanie.key : Vangovanie → Nat × Str
  | .KnownPrefix p => (0, p)
  | .UnknownPrefix p => (1, p)
  | .Postfix => (2, [])

def cmpVangovanie (a b : Vangovanie) : Ordering :=
  match cmpNat a.key.1 b.key.1 with
  | .eq => cmpStr a.key.2 b.key.2
  | o => o

def cmpMethod (a b : Method) : Ordering :=
  match a, b with
  | .Dictionary, .Dictionary => .eq
  | .Dictionary, .Vangovanie _ => .lt
  | .Vangovanie _, .Dictionary => .gt
  | .Vangovanie v1, .Vangovanie v2 => cmpVangovanie v1 v2

def cmpParsedWord (a b : ParsedWord) : Ordering :=
  match cmpStr a.word b.word with
  | .eq =>
    match cmpTag a.tags b.tags with
    | .eq =>
      match cmpStr a.normal_form b.normal_form with
      | .eq => cmpMethod a.method b.method
      | o => o
    | o => o
  | o => o

def cmpNormalizedWord (a b : NormalizedWord) : Ordering :=
  match cmpStr a.normal_word b.normal_word with
  | .eq =>
    match cmpTag a.tags b.tags with
    | .eq => cmpMethod a.method b.method
    | o => o
  | o => o

/-! ## Table getters (src/analyzer/pretty_display.rs top half) -/

def getTag (a : MorphAnalyzer) (i : Nat) : Except ParseErr Tag :=
  match a.tags.get? i with
  | some t => .ok t
  | none => .error (.OutOfBound i .Tags)

def getLemmas (a : MorphAnalyzer) (i : Nat) : Except ParseErr Str :=
  match a.lemmas.get? i with
  | some s => .ok s
  | none => .error (.OutOfBound i .Lemmas)

def getParse (a : MorphAnalyzer) (i : Nat) : Except ParseErr (List Parse) :=
  match a.word_parses.get? i with
  | some p => .ok p
  | none => .error (.OutOfBound i .WordParses)

def getRowId (a : MorphAnalyzer) (i : Nat) : Except ParseErr (List Nat) :=
  match a.lemmas_rows.get? i with
  | some r => .ok r
  | none => .error (.OutOfBound i .LemmasRow)

/-! ## Conversions (src/analyzer/morpholyzer.rs) -/

def tryIntoParse (a : MorphAnalyzer) (word : Str) (p : Parse) :
    Except ParseErr ParsedWord := do
  let t ← getTag a p.tag
  let nf ← getLemmas a p.normal_form
  pure ⟨word, t, nf, .Dictionary⟩

def tryIntoNormalized (a : MorphAnalyzer) (p : Parse) :
    Except ParseErr NormalizedWord := do
  let nf ← getLemmas a p.normal_form
  let t ← getTag a p.tag
  pure ⟨nf, t, .Dictionary⟩

def tryIntoInflect (a : MorphAnalyzer) (word : Str) (p : Parse) :
    Except ParseErr InflectWord := do
  let t ← getTag a p.tag
  let nf ← getLemmas a p.normal_form
  pure ⟨word, t, nf, .Dictionary⟩

/-! ## OOV predictor (vangovanie)

The known-prefix table is translated from src/analyzer/vangovanie.rs
(`KNOWN_PREFIX`, 76 entries). -/

def KNOWN_PREFIX : List Str :=
  [str "в", str "во", str "взо", str "вне", str "внутри", str "возо",
   str "вы", str "до", str "еже", str "за", str "зако", str "изо",
   str "испод", str "к", str "кое", str "ку", str "меж", str "междо",
   str "между", str "на", str "над", str "надо", str "наи", str "не",
   str "недо", str "ни", str "низо", str "о", str "об", str "обо",
   str "около", str "от", str "ото", str "па", str "пере", str "по",
   str "под", str "подо", str "поза", str "после", str "пра", str "пред",
   str "преди", str "предо", str "про", str "противо", str "разо",
   str "с", str "со", str "сверх", str "среди", str "су", str "тре",
   str "у", str "без", str "бес", str "вз", str "вс", str "воз",
   str "вос", str "из", str "ис", str "низ", str "нис", str "обез",
   str "обес", str "раз", str "рас", str "роз", str "рос", str "через",
   str "черес", str "чрез", str "чрес", str "пре", str "при"]

/-- A predictor candidate.  Modelled from the spec: the `VangovanieRes`
produced by the `MorphAnalyzer::vangovanie` that `parse_word` destructures
(fields `tags`, `form`, `method`, `normal_form` plus a score) is absent from
the provided sources; src/analyzer/vangovanie.rs only holds an older,
incompatible `Dictionary::vangovanie` stub. -/
structure VangovanieRes where
  tags : Tag
  form : Form
  method : Vangovanie
  normal_form : Str
  score : ℚ
deriving DecidableEq

def cmpRat (x y : ℚ) : Ordering :=
  if x < y then .lt else if y < x then .gt else .eq

/-- Descending-score comparator for predictor output. -/
def cmpScoreDesc (a b : VangovanieRes) : Ordering := cmpRat b.score a.score

/-- Modelled from the spec: phase 1 and phase 2 of §4.5 (the
`MorphAnalyzer::vangovanie` body is missing from src).  Phase 1: for every
known prefix `p` of `word` with a stem of ≥ 3 characters found in the FST,
emit one candidate per parse of the stem whose tag has no UNPRODUCTIVE
grammeme, with `form = parse.form.toVanga()`, `method = KnownPrefix(p)`,
`normalForm = parse.normalForm`, score 0.75.  Phase 2: for every split at
character position 1..5 whose head is not a known prefix, the same with
`UnknownPrefix` and score 0.5.  Phase 3 (postfix) is skipped in the current
implementation. -/
def vangaEmit (a : MorphAnalyzer) (m : Vangovanie) (sc : ℚ)
    (acc2 : List VangovanieRes) (parse : Parse) :
    Except ParseErr (List VangovanieRes) := do
  let tag ← getTag a parse.tag
  if tag.any (fun g => g ∈ UNPRODUCTIVE) then pure acc2
  else do
    let nf ← getLemmas a parse.normal_form
    pure (acc2 ++ [⟨tag, parse.form.switch_vanga, m, nf, sc⟩])

def vangaPhase1Step (a : MorphAnalyzer) (word : Str)
    (acc : List VangovanieRes) (p : Str) :
    Except ParseErr (List VangovanieRes) := do
  match stripPref p word with
  | none => pure acc
  | some stem =>
    if stem.length < 3 then pure acc
    else match fstGet a stem with
      | none => pure acc
      | some id => do
        let parses ← getParse a id
        parses.foldlM (vangaEmit a (.KnownPrefix p) ((3 : ℚ)/4)) acc

def vangaPhase2Step (a : MorphAnalyzer) (word : Str)
    (acc : List VangovanieRes) (i : Nat) :
    Except ParseErr (List VangovanieRes) := do
  let p := word.take i
  let stem := word.drop i
  if p ∈ KNOWN_PREFIX then pure acc
  else if stem.length < 3 then pure acc
  else match fstGet a stem with
    | none => pure acc
    | some id => do
      let parses ← getParse a id
      parses.foldlM (vangaEmit a (.UnknownPrefix p) ((1 : ℚ)/2)) acc

def vangovanie_candidates (a : MorphAnalyzer) (word : Str) :
    Except ParseErr (List VangovanieRes) := do
  let phase1 ← KNOWN_PREFIX.foldlM (vangaPhase1Step a word) []
  ([1, 2, 3, 4] : List Nat).foldlM (vangaPhase2Step a word) phase1

/-- Modelled from the spec: final scoring of §4.5 — divide every candidate's
score by the candidate count, sort by descending score, `none` when no
candidate remains. -/
def vangovanie (a : MorphAnalyzer) (word : Str) :
    Except ParseErr (Option (List VangovanieRes)) := do
  let all ← vangovanie_candidates a word
  if all.length = 0 then pure none
  else
    pure (some (sortRust cmpScoreDesc
      (all.map (fun r => { r with score := r.score / (all.length : ℚ) }))))

/-! ## Lookup engine (src/analyzer/mod.rs) -/

/-- The per-candidate step of `parse_word`'s predictor branch. -/
def parse_vanga_step (word : Str) (acc : List ParsedWord) (r : VangovanieRes) :
    Except ParseErr (List ParsedWord) :=
  match r.method with
  | .KnownPrefix affix =>
    pure (acc ++ [⟨word, r.tags, affix ++ r.normal_form, .Vangovanie r.method⟩])
  | .UnknownPrefix affix =>
    pure (acc ++ [⟨word, r.tags, affix ++ r.normal_form, .Vangovanie r.method⟩])
  | .Postfix => Except.error .FutureRelease

/-- `MorphAnalyzer::parse_word`. -/
def parse_word (a : MorphAnalyzer) (word : Str) :
    Except ParseErr (List ParsedWord) := do
  match fstGet a word with
  | some common_id => do
    let vec_tags ← getParse a common_id
    let parsed ← vec_tags.foldlM
      (fun acc parse => do pure (acc ++ [← tryIntoParse a word parse])) []
    pure (sortRust cmpParsedWord parsed)
  | none => do
    match ← vangovanie a word with
    | some vanga => vanga.foldlM (parse_vanga_step word) []
    | none => pure []

/-- The inner loop of `normalized_word`'s non-normal branch: one parse of
the normal form's own FST entry. -/
def normalized_inner_step (a : MorphAnalyzer) (lemmas_link : List Nat)
    (acc2 : List NormalizedWord) (parse2 : Parse) :
    Except ParseErr (List NormalizedWord) := do
  let nw ← tryIntoNormalized a parse2
  if parse2.form.is_normal ∧ nw ∉ acc2 then
    match parse2.form.id with
    | some fid =>
      if fid ∈ lemmas_link then pure (acc2 ++ [nw]) else pure acc2
    | none => pure acc2
  else pure acc2

/-- One parse of the queried word inside `normalized_word`. -/
def normalized_step (a : MorphAnalyzer) (acc : List NormalizedWord)
    (parse : Parse) : Except ParseErr (List NormalizedWord) := do
  if parse.form.is_normal then
    pure (acc ++ [← tryIntoNormalized a parse])
  else do
    let lemmas_link ← getRowId a parse.lemma_row_id
    let w ← getLemmas a parse.normal_form
    let id ← match fstGet a w with
      | some id => pure id
      | none => Except.error (.LostNormalForm w)
    let vec_parses2 ← getParse a id
    vec_parses2.foldlM (normalized_inner_step a lemmas_link) acc

/-- `MorphAnalyzer::normalized_word`.  In the non-normal branch the source
unwraps `parse.form.id()`; a `None` there would be a Rust panic — it is
unreachable for compiled dictionaries, where every stored form is
`Form::Word`, and the model skips the entry. -/
def normalized_word (a : MorphAnalyzer) (word : Str) :
    Except ParseErr (List NormalizedWord) := do
  match fstGet a word with
  | some common_id => do
    let vec_parses ← getParse a common_id
    let normalized ← vec_parses.foldlM (normalized_step a) []
    pure (sortRust cmpNormalizedWord normalized)
  | none => do
    match ← vangovanie a word with
    | some vanga =>
      vanga.foldlM
        (fun acc r => do
          if r.form.is_normal then
            pure (acc ++ [(⟨word, r.tags, .Vangovanie r.method⟩ : NormalizedWord)])
          else Except.error .FutureRelease) []
    | none => pure []

/-- `MorphAnalyzer::is_known` (src/lib.rs). -/
def is_known (a : MorphAnalyzer) (word : Str) : Bool :=
  (fstGet a word).isSome

end MorphRS

namespace MorphRS

/-! ## Inflection and declension (src/analyzer/mod.rs, morpholyzer.rs)

`alphabet_stream` lives in src/analyzer/declension.rs, which is declared by
`analyzer/mod.rs` but absent from the provided sources; it is modelled from
the spec below.  Everything else is translated from the sources. -/

/-- `WordForm` (src/analyzer/mod.rs); the source field `lemma` is called
`lemmaStr` (`lemma` is a Lean keyword). -/
structure WordForm where
  i : Nat
  tag : Tag
  lemmaStr : Str
deriving DecidableEq

/-- The Russian alphabet used for range construction. -/
def RUS_ALPHABET : List Char :=
  ['а', 'б', 'в', 'г', 'д', 'е', 'ё', 'ж', 'з', 'и', 'й', 'к', 'л', 'м',
   'н', 'о', 'п', 'р', 'с', 'т', 'у', 'ф', 'х', 'ц', 'ч', 'ш', 'щ', 'ъ',
   'ы', 'ь', 'э', 'ю', 'я']

/-- Longest common prefix of two strings. -/
def commonPref : Str → Str → Str
  | a :: as, b :: bs => if a = b then a :: commonPref as bs else []
  | _, _ => []

/-- Modelled from the spec: `alphabet_stream`
(src/analyzer/declension.rs, missing from src).  Per §4.4.1 step 3 and the
§7 error taxonomy: an empty word is the `EmptyWord` error; the lower bound
is the longest common prefix of the source word and the lemma string (the
word itself when they share nothing); the upper bound replaces the bound's
last symbol by its successor in the alphabet, a symbol outside the alphabet
is the `BinaryChar` error, and when no successor exists only the exact
lower bound is streamed. -/
def alphabet_stream (word lemmaW : Str) (_tag : Tag) :
    Except DeclensionErr (List (Str × Option Str)) := do
  match word with
  | [] => .error .EmptyWord
  | _ => do
    let p := commonPref word lemmaW
    let base := if p.isEmpty then word else p
    match base.getLast? with
    | none => .error .EmptyWord
    | some c =>
      match RUS_ALPHABET.indexOf? c with
      | none => .error (.BinaryChar c)
      | some i =>
        match RUS_ALPHABET.get? (i + 1) with
        | some nxt => pure [(base, some (base.dropLast ++ [nxt]))]
        | none => pure [(base, none)]

/-- `MorphAnalyzer::id_forms` (src/analyzer/morpholyzer.rs): enumerate every
parse of `word_parses` whose lemma id qualifies; a parse without an id is
logged and skipped in the source. -/
def id_forms (a : MorphAnalyzer) (ids : List Nat) (word_id : Option Nat)
    (grammemes : Option (List Grammem)) : List (Nat × Parse) :=
  a.word_parses.enum.flatMap
    (fun ip =>
      ip.2.filterMap
        (fun p =>
          match p.form.id with
          | none => none
          | some fid =>
            match grammemes, word_id with
            | none, some wid =>
              if wid = fid ∧ (p.form.is_inizio || p.form.is_normal)
              then some (ip.1, p) else none
            | _, _ => if fid ∈ ids then some (ip.1, p) else none))

/-- The `HashMap<(String, Option<String>), Vec<WordForm>>` of prefix ranges,
modelled as an insertion-ordered association list (its iteration order only
permutes the output list, which every claim treats as a set). -/
abbrev StreamMap := List ((Str × Option Str) × List WordForm)

def smEntryPush (hs : StreamMap) (k : Str × Option Str) (wf : WordForm) :
    StreamMap :=
  match hs with
  | [] => [(k, [wf])]
  | (k', v) :: rest =>
    if k' = k then (k', if wf ∈ v then v else v ++ [wf]) :: rest
    else (k', v) :: smEntryPush rest k wf

/-- `MorphAnalyzer::collect_stream_hashset` (src/analyzer/morpholyzer.rs). -/
def collect_stream_hashset (a : MorphAnalyzer) (word : Str)
    (grammemes : Option (List Grammem)) (idf : List (Nat × Parse))
    (hs : StreamMap) : Except ParseErr StreamMap :=
  idf.foldlM
    (fun hs ip => do
      let tag ← getTag a ip.2.tag
      let skip : Bool := match grammemes with
        | some gs => ¬ gs.all (fun g => g ∈ tag)
        | none => false
      if skip then pure hs
      else do
        let nf ← getLemmas a ip.2.normal_form
        let ranges ← match alphabet_stream word nf tag with
          | .ok rs => pure rs
          | .error e => Except.error (.Declension e)
        pure (ranges.foldl (fun hs r => smEntryPush hs r ⟨ip.1, tag, nf⟩) hs))
    hs

def ltStr (a b : Str) : Prop := cmpStr a b = .lt

instance : DecidableRel ltStr := fun a b => by unfold ltStr; infer_instance

/-- `MorphAnalyzer::iter_fst` (src/analyzer/morpholyzer.rs): stream the fst
over each `[first, last)` range (or the exact key when no upper bound),
keeping the keys whose value matches a collected `WordForm`. -/
def iter_fst (a : MorphAnalyzer) (hs : StreamMap)
    (inflect : List InflectWord) : List InflectWord :=
  hs.foldl
    (fun inflect (e : (Str × Option Str) × List WordForm) =>
      let stream := match e.1.2 with
        | some last => a.fst.filter
            (fun (kv : Str × Nat) => ¬ ltStr kv.1 e.1.1 ∧ ltStr kv.1 last)
        | none => a.fst.filter
            (fun (kv : Str × Nat) => ¬ ltStr kv.1 e.1.1 ∧ ¬ ltStr e.1.1 kv.1)
      stream.foldl
        (fun inflect (kv : Str × Nat) =>
          (e.2.filter (fun (wf : WordForm) => wf.i = kv.2)).foldl
            (fun inflect (wf : WordForm) =>
              let iw : InflectWord := ⟨kv.1, wf.tag, wf.lemmaStr, .Dictionary⟩
              if iw ∈ inflect then inflect else inflect ++ [iw])
            inflect)
        inflect)
    inflect

/-- `MorphAnalyzer::inflect_parse` (src/analyzer/mod.rs). -/
def inflect_parse (a : MorphAnalyzer) (word : Str) (parse : Parse)
    (grammemes : Option (List Grammem)) (inflect : List InflectWord) :
    Except ParseErr (List InflectWord) := do
  if grammemes.isNone ∧ (parse.form.is_inizio || parse.form.is_normal) then
    pure (inflect ++ [← tryIntoInflect a word parse])
  else do
    let ids ← getRowId a parse.lemma_row_id
    let word_id ← match parse.form.id with
      | some i => pure i
      | none => Except.error (.LostLemmaId word)
    let idf := id_forms a ids (some word_id) grammemes
    let hs ← collect_stream_hashset a word grammemes idf []
    pure (iter_fst a hs inflect)

/-- `MorphAnalyzer::inflect_word` (src/analyzer/mod.rs): a word absent from
the FST is the `FutureRelease` error; an in-FST word with no matching form
is `none`. -/
def inflect_word (a : MorphAnalyzer) (word : Str)
    (grammemes : Option (List Grammem)) :
    Except ParseErr (Option (List InflectWord)) := do
  match fstGet a word with
  | some common_id => do
    let vec_parses ← getParse a common_id
    let inflect ← vec_parses.foldlM
      (fun acc parse => inflect_parse a word parse grammemes acc) []
    if inflect.isEmpty then pure none else pure (some inflect)
  | none => .error .FutureRelease

/-- First-occurrence deduplication (the `HashSet<Vec<OpCLid>>` of
`declension_word`; set iteration order only permutes the output groups). -/
def dedupFirst : List (List Nat) → List (List Nat)
  | [] => []
  | x :: t => if x ∈ t then
      -- keep a single copy; position among equals is irrelevant downstream
      dedupFirst t
    else x :: dedupFirst t

/-- `MorphAnalyzer::declension_ids` (src/analyzer/mod.rs). -/
def declension_ids (a : MorphAnalyzer) (word : Str) (ids : List Nat) :
    Except ParseErr (List InflectWord) := do
  let idf := id_forms a ids none none
  let hs ← collect_stream_hashset a word none idf []
  pure (iter_fst a hs [])

/-- `MorphAnalyzer::declension_word` (src/analyzer/mod.rs): a word absent
from the FST is the `FutureRelease` error; empty groups are dropped. -/
def declension_word (a : MorphAnalyzer) (word : Str) :
    Except ParseErr (List (List InflectWord)) := do
  match fstGet a word with
  | some common_id => do
    let ps ← getParse a common_id
    let set_ids := dedupFirst (ps.filterMap (fun p => a.lemmas_rows.get? p.lemma_row_id))
    set_ids.foldlM
      (fun acc ids => do
        let inflect ← declension_ids a word ids
        if inflect.isEmpty then pure acc else pure (acc ++ [inflect])) []
  | none => .error .FutureRelease

/-- `MorphAnalyzer::inflect_inizio` (src/lib.rs). -/
def inflect_inizio (a : MorphAnalyzer) (word : Str) :
    Except ParseErr (Option (List InflectWord)) :=
  inflect_word a word none

/-- `MorphAnalyzer::inflect_forms` (src/lib.rs). -/
def inflect_forms (a : MorphAnalyzer) (word : Str) (g : List Grammem) :
    Except ParseErr (Option (List InflectWord)) :=
  inflect_word a word (some g)

end MorphRS

namespace MorphRS

/-! ## Display contract (src/analyzer/pretty_display.rs, src/lib.rs)

`derive_more::Display` renders a grammeme as the name of its payload
variant (pinned by the repository's own display test for words like
`москве`); `Method::Dictionary` renders as `Dictionary`, and a
`Method::Vangovanie(v)` renders as the display of `v`:
`KnowPrefix({p})` / `UnknowPrefix({p})` / `Postfix` (note the source's
`fmt` strings spell them without the second `n`). -/

/-- The `Display` of a `Grammem` (the Rust variant name). -/
def Grammem.display : Grammem → Str
  | .ParteSpeech .Noun => str "Noun"
  | .ParteSpeech .AdjectiveFull => str "AdjectiveFull"
  | .ParteSpeech .AdjectiveShort => str "AdjectiveShort"
  | .ParteSpeech .Comparative => str "Comparative"
  | .ParteSpeech .Verb => str "Verb"
  | .ParteSpeech .Infinitive => str "Infinitive"
  | .ParteSpeech .ParticipleFull => str "ParticipleFull"
  | .ParteSpeech .ParticipleShort => str "ParticipleShort"
  | .ParteSpeech .Gerundive => str "Gerundive"
  | .ParteSpeech .Number => str "Number"
  | .ParteSpeech .Adverb => str "Adverb"
  | .ParteSpeech .NounPronoun => str "NounPronoun"
  | .ParteSpeech .Predicative => str "Predicative"
  | .ParteSpeech .Preposition => str "Preposition"
  | .ParteSpeech .Conjunction => str "Conjunction"
  | .ParteSpeech .Particle => str "Particle"
  | .ParteSpeech .Interjection => str "Interjection"
  | .Animacy .Animate => str "Animate"
  | .Animacy .Inanimate => str "Inanimate"
  | .Animacy .Both => str "Both"
  | .Aspect .Perfetto => str "Perfetto"
  | .Aspect .Imperfetto => str "Imperfetto"
  | .Case .Fixed => str "Fixed"
  | .Case .Nominativus => str "Nominativus"
  | .Case .Genetivus => str "Genetivus"
  | .Case .Dativus => str "Dativus"
  | .Case .Accusativus => str "Accusativus"
  | .Case .Ablativus => str "Ablativus"
  | .Case .Locativus => str "Locativus"
  | .Case .Vocativus => str "Vocativus"
  | .Case .Gen2 => str "Gen2"
  | .Case .Acc2 => str "Acc2"
  | .Case .Loc2 => str "Loc2"
  | .Gender .Masculine => str "Masculine"
  | .Gender .Feminine => str "Feminine"
  | .Gender .Neutral => str "Neutral"
  | .Gender .Common => str "Common"
  | .Gender .CommonWavering => str "CommonWavering"
  | .Gender .GenderNeutral => str "GenderNeutral"
  | .Involvement .Incluso => str "Incluso"
  | .Involvement .Excluso => str "Excluso"
  | .Mood .Indicativo => str "Indicativo"
  | .Mood .Imperativo => str "Imperativo"
  | .Number .Singular => str "Singular"
  | .Number .Plural => str "Plural"
  | .Number .SingulariaTantum => str "SingulariaTantum"
  | .Number .PluraliaTantum => str "PluraliaTantum"
  | .Trans .Transitive => str "Transitive"
  | .Trans .Intransitive => str "Intransitive"
  | .Tense .Past => str "Past"
  | .Tense .Present => str "Present"
  | .Tense .Future => str "Future"
  | .Voice .Active => str "Active"
  | .Voice .Passive => str "Passive"
  | .Person .First => str "First"
  | .Person .Second => str "Second"
  | .Person .Third => str "Third"
  | .Person .Impersonal => str "Impersonal"
  | .Person .PossibleImpersonal => str "PossibleImpersonal"
  | .Other .Abbreviation => str "Abbreviation"
  | .Other .Name => str "Name"
  | .Other .Surname => str "Surname"
  | .Other .Patronymic => str "Patronymic"
  | .Other .Geography => str "Geography"
  | .Other .Organization => str "Organization"
  | .Other .Trademark => str "Trademark"
  | .Other .PossibleSubstantive => str "PossibleSubstantive"
  | .Other .Superior => str "Superior"
  | .Other .Quality => str "Quality"
  | .Other .Pronominal => str "Pronominal"
  | .Other .Ordinal => str "Ordinal"
  | .Other .Possessive => str "Possessive"
  | .Other .Questionable => str "Questionable"
  | .Other .Demonstrative => str "Demonstrative"
  | .Other .Anaphoric => str "Anaphoric"
  | .Other .Comparative => str "Comparative"
  | .Other .FormEY => str "FormEY"
  | .Other .FormOY => str "FormOY"
  | .Other .FormEJ => str "FormEJ"
  | .Other .FormBE => str "FormBE"
  | .Other .FormENEN => str "FormENEN"
  | .Other .FormIE => str "FormIE"
  | .Other .FormBI => str "FormBI"
  | .Other .ParticipleSH => str "ParticipleSH"
  | .Other .Multiple => str "Multiple"
  | .Other .Reflessivo => str "Reflessivo"
  | .Other .Spoken => str "Spoken"
  | .Other .Slang => str "Slang"
  | .Other .Archaic => str "Archaic"
  | .Other .Literary => str "Literary"
  | .Other .Error => str "Error"
  | .Other .Distortion => str "Distortion"
  | .Other .Parenthesis => str "Parenthesis"
  | .Other .ImperfectiveParticiple => str "ImperfectiveParticiple"
  | .Other .PossiblePredicative => str "PossiblePredicative"
  | .Other .Countable => str "Countable"
  | .Other .Collection => str "Collection"
  | .Other .AfterPreposition => str "AfterPreposition"
  | .Other .PrepositionVariant => str "PrepositionVariant"
  | .Other .Initial => str "Initial"
  | .Other .PossibleAdjective => str "PossibleAdjective"
  | .Other .Hypothetical => str "Hypothetical"
  | .Other .OtherG => str "Other"

/-- The `Display` of a `Vangovanie` (src/lib.rs `display(fmt = ...)`
attributes: `KnowPrefix({_0})`, `UnknowPrefix({_0})`, `Postfix`). -/
def Vangovanie.display : Vangovanie → Str
  | .KnownPrefix p => str "KnowPrefix(" ++ p ++ str ")"
  | .UnknownPrefix p => str "UnknowPrefix(" ++ p ++ str ")"
  | .Postfix => str "Postfix"

/-- The `Display` of a `Method`. -/
def Method.display : Method → Str
  | .Dictionary => str "Dictionary"
  | .Vangovanie v => v.display

/-- The loop shared by every `Display` impl of pretty_display.rs: when the
list has more than one element, print all but the last each followed by the
separator, then print the last (or nothing when empty). -/
def displayLoop (sep : Str) (l : List Str) : Str :=
  (if l.length > 1 then ((l.take (l.length - 1)).map (fun t => t ++ sep)).flatten
   else []) ++
  (match l.getLast? with
   | some last => last
   | none => [])

/-- `Display for ParsedWord`. -/
def ParsedWord.display (pw : ParsedWord) : Str :=
  str "ParsedWord = '" ++ pw.word ++ str "', " ++
  str "tags: [" ++ displayLoop (str ", ") (pw.tags.map Grammem.display) ++
  str "], " ++
  str "normal_form = '" ++ pw.normal_form ++ str "', " ++
  str "Method::" ++ pw.method.display

/-- `Display for ParsedWords`: entries of the list, each of the first
`len - 1` followed by `,` and a newline (`writeln!("{},", ..)`). -/
def ParsedWords.display (l : List ParsedWord) : Str :=
  displayLoop (str ",\n") (l.map ParsedWord.display)

/-- "Entries separated by `sep`": the specification's reading of the
display loops. -/
def sepConcat (sep : Str) : List Str → Str
  | [] => []
  | [x] => x
  | x :: y :: t => x ++ sep ++ sepConcat sep (y :: t)

theorem displayLoop_cons (sep x y : Str) (t : List Str) :
    displayLoop sep (x :: y :: t) = x ++ sep ++ displayLoop sep (y :: t) := by
  rcases t with _ | ⟨z, t2⟩
  · simp [displayLoop]
  · simp only [displayLoop, List.length_cons, List.getLast?_cons_cons]
    have h1 : z :: t2 ≠ [] := by simp
    have h2 : (t2.length + 1 + 1 + 1) - 1 = t2.length + 1 + 1 := by omega
    have h3 : (t2.length + 1 + 1) - 1 = t2.length + 1 := by omega
    rw [h2, h3]
    simp only [List.take_succ_cons, List.map_cons, List.flatten_cons]
    have hgt : t2.length + 1 + 1 + 1 > 1 := by omega
    have hgt2 : t2.length + 1 + 1 > 1 := by omega
    simp only [if_pos hgt, if_pos hgt2]
    simp [List.append_assoc]

theorem displayLoop_eq_sepConcat (sep : Str) (l : List Str) :
    displayLoop sep l = sepConcat sep l := by
  induction l with
  | nil => simp [displayLoop, sepConcat]
  | cons x t ih =>
    rcases t with _ | ⟨y, t2⟩
    · simp [displayLoop, sepConcat]
    · rw [displayLoop_cons, ih, sepConcat]

end MorphRS

namespace MorphRS

/-! ## Properties of `longest_common_substring` -/

theorem substr_of_contains {pat hay : Str} (h : containsStr pat hay = true) :
    SubStr pat hay := containsStr_iff.1 h

theorem contains_of_substr {pat hay : Str} (h : SubStr pat hay) :
    containsStr pat hay = true := containsStr_iff.2 h

/-- Invariant of the inner word scan: the candidate result is either cleared
or confirmed common to every word, and the best-match result is always a
common substring of the base and of every word. -/
theorem lcsScanWords_spec {base : Str} {words : List Str} {sub : Str}
    (hsub : SubStr sub base)
    (hdl : ∀ w ∈ words, SubStr sub.dropLast w) :
    ∀ (ws pre : List Str) (best : Str),
      pre ++ ws = words →
      (∀ w ∈ pre, SubStr sub w) →
      ((SubStr best base ∧ ∀ w ∈ words, SubStr best w) ∨ best = sub) →
      ((lcsScanWords sub best ws).1 = [] ∨
        ((lcsScanWords sub best ws).1 = sub ∧ ∀ w ∈ words, SubStr sub w)) ∧
      (SubStr (lcsScanWords sub best ws).2 base ∧
        ∀ w ∈ words, SubStr (lcsScanWords sub best ws).2 w) := by
  intro ws
  induction ws with
  | nil =>
    intro pre best hsplit hpre hbest
    have hall : ∀ w ∈ words, SubStr sub w := by
      intro w hw
      rw [← hsplit] at hw
      simp only [List.append_nil] at hw
      exact hpre w hw
    refine ⟨Or.inr ⟨rfl, hall⟩, ?_⟩
    rcases hbest with h | rfl
    · exact h
    · exact ⟨hsub, hall⟩
  | cons w ws ih =>
    intro pre best hsplit hpre hbest
    by_cases hc : containsStr sub w = true
    · have hstep : lcsScanWords sub best (w :: ws) =
          lcsScanWords sub (if utf8Len best < utf8Len sub then sub else best) ws := by
        simp [lcsScanWords, hc]
      rw [hstep]
      apply ih (pre ++ [w])
      · rw [← hsplit]; simp
      · intro v hv
        rcases List.mem_append.1 hv with h | h
        · exact hpre v h
        · rw [List.mem_singleton.1 h]
          exact substr_of_contains hc
      · by_cases hlen : utf8Len best < utf8Len sub
        · rw [if_pos hlen]; exact Or.inr rfl
        · rw [if_neg hlen]; exact hbest
    · have hstep : lcsScanWords sub best (w :: ws) =
          ([], if utf8Len sub = utf8Len best ∧ containsStr best sub = true
               then best.dropLast else best) := by
        simp [lcsScanWords, hc]
      rw [hstep]
      refine ⟨Or.inl rfl, ?_⟩
      by_cases hcond : utf8Len sub = utf8Len best ∧ containsStr best sub = true
      · rw [if_pos hcond]
        have hbs : best = sub :=
          (substr_of_contains hcond.2).eq_of_utf8Len_eq hcond.1.symm
        subst hbs
        exact ⟨hsub.dropLast, hdl⟩
      · rw [if_neg hcond]
        rcases hbest with h | rfl
        · exact h
        · exact absurd ⟨rfl, contains_of_substr (SubStr.refl _)⟩ hcond

/-- Invariant of the outer character loop: the best match stays a common
substring of the base and of every scanned word. -/
theorem lcsOuter_spec {words : List Str} {base : Str} :
    ∀ (rest : List Char) (pref sub best : Str),
      pref ++ rest = base →
      (sub = [] ∨ ((∃ l, pref = l ++ sub) ∧ ∀ w ∈ words, SubStr sub w)) →
      SubStr best base → (∀ w ∈ words, SubStr best w) →
      SubStr (lcsOuter words rest sub best) base ∧
        ∀ w ∈ words, SubStr (lcsOuter words rest sub best) w := by
  intro rest
  induction rest with
  | nil =>
    intro pref sub best _ _ h3 h4
    exact ⟨h3, h4⟩
  | cons c cs ih =>
    intro pref sub best h1 h2 h3 h4
    have hsuffix : ∃ l, pref ++ [c] = l ++ (sub ++ [c]) := by
      rcases h2 with rfl | ⟨⟨l, hl⟩, _⟩
      · exact ⟨pref, by simp⟩
      · exact ⟨l, by rw [hl, List.append_assoc]⟩
    have hsub : SubStr (sub ++ [c]) base := by
      obtain ⟨l, hl⟩ := hsuffix
      refine ⟨l, cs, ?_⟩
      rw [← h1]
      have : pref ++ c :: cs = (pref ++ [c]) ++ cs := by simp
      rw [this, hl, List.append_assoc]
    have hdl : ∀ w ∈ words, SubStr (sub ++ [c]).dropLast w := by
      rw [List.dropLast_concat]
      intro w hw
      rcases h2 with rfl | ⟨_, h⟩
      · exact SubStr.nil w
      · exact h w hw
    have hscan := lcsScanWords_spec hsub hdl words [] best rfl (by simp)
      (Or.inl ⟨h3, h4⟩)
    have hstep : lcsOuter words (c :: cs) sub best =
        lcsOuter words cs (lcsScanWords (sub ++ [c]) best words).1
          (lcsScanWords (sub ++ [c]) best words).2 := rfl
    rw [hstep]
    apply ih (pref ++ [c])
    · rw [← h1]; simp
    · rcases hscan.1 with h | ⟨heq, hcomm⟩
      · exact Or.inl h
      · refine Or.inr ⟨?_, ?_⟩
        · rw [heq]; exact hsuffix
        · rw [heq]; exact hcomm
    · exact hscan.2.1
    · exact hscan.2.2

theorem longest_common_substring_substr :
    ∀ (data : List Str), ∀ w ∈ data, SubStr (longest_common_substring data) w := by
  intro data w hw
  rcases data with _ | ⟨base, _ | ⟨y, rest⟩⟩
  · cases hw
  · rw [List.mem_singleton.1 hw]
    exact SubStr.refl _
  · have hres : longest_common_substring (base :: y :: rest) =
        lcsOuter (y :: rest) base [] [] := rfl
    have hmain := @lcsOuter_spec (y :: rest) base base [] [] []
      (by simp) (Or.inl rfl) (SubStr.nil base) (fun w _ => SubStr.nil w)
    rw [hres]
    rcases List.mem_cons.1 hw with rfl | hw2
    · exact hmain.1
    · exact hmain.2 w hw2

end MorphRS

namespace MorphRS

/-- C8: `longest_common_substring` returns "ric" on
["apricot","rice","cricket"], the empty string on ["foo","bar","baz"], and
"еж" on the ё→е-substituted forms ["еж","ежа","ежу","ежом"]; in general its
result is a contiguous substring occurring in every input string (not merely
a common prefix). -/
theorem C8_longest_common_substring :
    longest_common_substring [str "apricot", str "rice", str "cricket"] = str "ric" ∧
    longest_common_substring [str "foo", str "bar", str "baz"] = str "" ∧
    longest_common_substring [str "еж", str "ежа", str "ежу", str "ежом"] = str "еж" ∧
    ∀ (data : List Str), ∀ w ∈ data, SubStr (longest_common_substring data) w :=
  ⟨by decide, by decide, by decide, longest_common_substring_substr⟩

/-- Witness for C8: the general clause applied at a concrete input. -/
theorem C8_longest_common_substring_witness :
    SubStr (longest_common_substring [str "apricot", str "rice", str "cricket"])
      (str "rice") :=
  C8_longest_common_substring.2.2.2 [str "apricot", str "rice", str "cricket"]
    (str "rice") (by decide)

end MorphRS

namespace MorphRS

/-! ## Properties of the link resolver -/

theorem mapGetLC_mapSetLC_self (m : LinkMap) (k : Nat) (v : List Nat) :
    mapGetLC (mapSetLC m k v) k = some v := by
  induction m with
  | nil => simp [mapGetLC, mapSetLC]
  | cons p rest ih =>
    by_cases h : p.1 = k
    · simp [mapGetLC, mapSetLC, h]
    · simp only [mapSetLC, if_neg h]
      simp only [mapGetLC, List.find?] at ih ⊢
      have : (p.1 == k) = false := by simpa using h
      rw [this]
      exact ih

theorem mapGetLC_mapSetLC_ne (m : LinkMap) {k k' : Nat} (v : List Nat)
    (h : k' ≠ k) : mapGetLC (mapSetLC m k v) k' = mapGetLC m k' := by
  induction m with
  | nil =>
    simp only [mapGetLC, mapSetLC, List.find?]
    have : (k == k') = false := by simpa using (Ne.symm h)
    rw [this]
  | cons p rest ih =>
    by_cases hp : p.1 = k
    · simp only [mapSetLC, if_pos hp, mapGetLC, List.find?]
      have h1 : (k == k') = false := by simpa using (Ne.symm h)
      have h2 : (p.1 == k') = false := by
        rw [hp]
        simpa using (Ne.symm h)
      rw [h1, h2]
    · simp only [mapSetLC, if_neg hp, mapGetLC, List.find?] at ih ⊢
      by_cases hk : p.1 = k'
      · have : (p.1 == k') = true := by simpa using hk
        rw [this]
      · have : (p.1 == k') = false := by simpa using hk
        rw [this]
        exact ih

theorem pushAbsent_nodup {l : List Nat} (h : l.Nodup) (x : Nat) :
    (pushAbsent l x).Nodup := by
  unfold pushAbsent
  split
  · exact h
  · simpa [List.nodup_append] using ⟨h, by assumption⟩

/-- No-duplicates invariant of every variant list, preserved by one attach. -/
theorem attachVariant_nodup {m : LinkMap}
    (h : ∀ k vs, mapGetLC m k = some vs → vs.Nodup) (k0 x : Nat) :
    ∀ k vs, mapGetLC (attachVariant m k0 x) k = some vs → vs.Nodup := by
  intro k vs hget
  unfold attachVariant at hget
  by_cases hk : k = k0
  · subst hk
    rw [mapGetLC_mapSetLC_self] at hget
    cases hget
    apply pushAbsent_nodup
    rcases hold : mapGetLC m k with _ | old
    · simp [hold]
    · simpa [hold] using h k old hold
  · rw [mapGetLC_mapSetLC_ne _ _ hk] at hget
    exact h k vs hget

theorem resolveStep_nodup {search : List Link} {m : LinkMap}
    (h : ∀ k vs, mapGetLC m k = some vs → vs.Nodup) (l : Link) :
    ∀ k vs, mapGetLC (resolveStep search m l) k = some vs → vs.Nodup := by
  unfold resolveStep
  split
  · rcases hf : search.find? (fun l2 => l2.variant == l.lemma_id) with _ | real
    · simp only [hf]
      exact attachVariant_nodup h _ _
    · simp only [hf]
      exact attachVariant_nodup (attachVariant_nodup h _ _) _ _
  · exact attachVariant_nodup h _ _

theorem foldl_resolveStep_nodup (search : List Link) :
    ∀ (ls : List Link) (m : LinkMap),
      (∀ k vs, mapGetLC m k = some vs → vs.Nodup) →
      ∀ k vs, mapGetLC (ls.foldl (resolveStep search) m) k = some vs → vs.Nodup := by
  intro ls
  induction ls with
  | nil => intro m h; exact h
  | cons l rest ih =>
    intro m h
    exact ih _ (resolveStep_nodup h l)

/-- Processing one link equals `resolveStep` when the type is not excluded. -/
theorem collectLemmasGo_filter (search : List Link) :
    ∀ (ls : List Link) (m : LinkMap),
      collectLemmasGo search ls m =
        (ls.filter (fun l => l.type_id ∉ EXCLUDED_LINKS)).foldl (resolveStep search) m := by
  intro ls
  induction ls with
  | nil => intro m; rfl
  | cons l rest ih =>
    intro m
    by_cases hex : l.type_id ∈ EXCLUDED_LINKS
    · have hstep : collectLemmasGo search (l :: rest) m = collectLemmasGo search rest m := by
        simp [collectLemmasGo, hex]
      rw [hstep, ih]
      have : (l :: rest).filter (fun l => l.type_id ∉ EXCLUDED_LINKS) =
          rest.filter (fun l => l.type_id ∉ EXCLUDED_LINKS) := by
        simp [List.filter, hex]
      rw [this]
    · have hfil : (l :: rest).filter (fun l => l.type_id ∉ EXCLUDED_LINKS) =
          l :: rest.filter (fun l => l.type_id ∉ EXCLUDED_LINKS) := by
        simp [List.filter, hex]
      rw [hfil, List.foldl_cons, ← ih]
      by_cases hdf : l.type_id ∈ DOUBLE_FROM
      · rcases hf : search.find? (fun l2 => l2.variant == l.lemma_id) with _ | real
        · simp [collectLemmasGo, hex, hdf, resolveStep, hf]
        · simp [collectLemmasGo, hex, hdf, resolveStep, hf]
      · simp [collectLemmasGo, hex, hdf, resolveStep]

/-- C3: link resolution ignores links with excluded types and resolves each
surviving link by `resolveStep` — a type-6/22 link whose `from` is some
link's `to` attaches both endpoints under that outer link's lemma, every
other surviving link attaches its `to` under its `from` — and every variant
list of the result is duplicate-free. -/
theorem C3_collect_lemmas (links : List Link) :
    collectLemmas links =
      (links.filter (fun l => l.type_id ∉ EXCLUDED_LINKS)).foldl
        (resolveStep links) [] ∧
    ∀ k vs, mapGetLC (collectLemmas links) k = some vs → vs.Nodup := by
  constructor
  · exact collectLemmasGo_filter links links []
  · rw [collectLemmas, collectLemmasGo_filter links links []]
    exact foldl_resolveStep_nodup links _ [] (by intro k vs h; cases h)

/-- Witness for C3: the resolver applied to a concrete double-hop setup
(the type-6 link 1→2 is re-attached under lemma 3 because link 3→1 points at
its `from`). -/
theorem C3_collect_lemmas_witness :
    collectLemmas [⟨6, 1, 2⟩, ⟨1, 3, 1⟩] = [(3, [1, 2])] ∧
    List.Nodup [1, 2] := by
  constructor
  · rw [(C3_collect_lemmas [⟨6, 1, 2⟩, ⟨1, 3, 1⟩]).1]
    decide
  · exact (C3_collect_lemmas [⟨6, 1, 2⟩, ⟨1, 3, 1⟩]).2 3 [1, 2] (by decide)

end MorphRS

namespace MorphRS

/-! ## Except plumbing -/

theorem except_bind_ok {α β ε : Type _} {x : Except ε α} {f : α → Except ε β}
    {b : β} (h : x >>= f = .ok b) : ∃ a, x = .ok a ∧ f a = .ok b := by
  cases x with
  | error e => simp [Bind.bind, Except.bind] at h
  | ok a => exact ⟨a, rfl, by simpa [Bind.bind, Except.bind] using h⟩

theorem except_pure_ok {α ε : Type _} {a b : α}
    (h : (pure a : Except ε α) = .ok b) : a = b := by
  cases h
  rfl

/-- Invariant preservation along `List.foldlM` in the `Except` monad. -/
theorem foldlM_except_invariant {α β ε : Type _} {f : β → α → Except ε β}
    {P : β → Prop}
    (hstep : ∀ b a b', P b → f b a = .ok b' → P b') :
    ∀ (l : List α) (b : β), P b →
      ∀ b', l.foldlM f b = .ok b' → P b' := by
  intro l
  induction l with
  | nil =>
    intro b hb b' h
    simp only [List.foldlM_nil] at h
    cases except_pure_ok h
    exact hb
  | cons a rest ih =>
    intro b hb b' h
    rw [List.foldlM_cons] at h
    obtain ⟨b1, h1, h2⟩ := except_bind_ok h
    exact ih b1 (hstep b a b1 hb h1) b' h2

/-! ## C6: properties of `Vanga::parse_vangas` -/

theorem parse_vangas_spec {stems : VangaIntermediate} {all_tags : List Tag}
    {vs : List Vanga} (h : Vanga.parse_vangas stems all_tags = .ok vs) :
    (∀ v ∈ vs, 3 ≤ v.popularity ∧
      ∀ it ∈ v.pfxs, ∀ ti ∈ it.tag, ti < all_tags.length) ∧
    List.Sorted (leOf cmpVangaPop) vs := by
  unfold Vanga.parse_vangas at h
  obtain ⟨vangas, hfold, hpure⟩ := except_bind_ok h
  cases except_pure_ok hpure
  constructor
  · intro v hv
    rw [sortRust_mem] at hv
    revert v hv
    have inv := foldlM_except_invariant
      (P := fun acc => ∀ v ∈ acc, 3 ≤ v.popularity ∧
        ∀ it ∈ v.pfxs, ∀ ti ∈ it.tag, ti < all_tags.length)
      ?step stems [] (by simp) vangas hfold
    · intro v hv; exact inv v hv
    case step =>
      intro acc p acc' hacc hstep
      by_cases hpop : p.2 < 3
      · simp only [if_pos hpop] at hstep
        cases except_pure_ok hstep
        exact hacc
      · simp only [if_neg hpop] at hstep
        obtain ⟨items, hitems, hpure2⟩ := except_bind_ok hstep
        cases except_pure_ok hpure2
        intro v hv
        rcases List.mem_append.1 hv with hmem | hmem
        · exact hacc v hmem
        · rw [List.mem_singleton.1 hmem]
          refine ⟨Nat.not_lt.mp hpop, ?_⟩
          have inv2 := foldlM_except_invariant
            (P := fun iacc => ∀ it ∈ iacc, ∀ ti ∈ it.tag, ti < all_tags.length)
            ?istep p.1 [] (by simp) items hitems
          · exact inv2
          case istep =>
            intro iacc it iacc' hiacc histep
            obtain ⟨idxs, hidxs, hpure3⟩ := except_bind_ok histep
            cases except_pure_ok hpure3
            intro v2 hv2
            rcases List.mem_append.1 hv2 with hmem2 | hmem2
            · exact hiacc v2 hmem2
            · rw [List.mem_singleton.1 hmem2]
              intro ti hti
              have inv3 := foldlM_except_invariant
                (P := fun tacc => ∀ t ∈ tacc, t < all_tags.length)
                ?tstep (sortRust cmpTag it.tag) [] (by simp) idxs hidxs
              · exact inv3 ti hti
              case tstep =>
                intro tacc t tacc' htacc htstep
                rcases hbs : binarySearch cmpTag all_tags t with _ | i <;>
                  rw [hbs] at htstep
                · cases htstep
                · cases except_pure_ok htstep
                  intro u hu
                  rcases List.mem_append.1 hu with hm | hm
                  · exact htacc u hm
                  · rw [List.mem_singleton.1 hm]
                    exact binarySearch_some_lt hbs
  · exact sortRust_sorted preCmpVangaPop vangas

end MorphRS

namespace MorphRS

deriving instance DecidableEq for Except

/-- Decomposition of a successful `from_opencorpora` run into its phases. -/
theorem from_opencorpora_ok {lemmata : List Lemma} {links : List Link}
    {d : Dictionary} {f : Fst}
    (h : from_opencorpora lemmata links = .ok (d, f)) :
    ∃ st bw,
      buildState lemmata links = .ok st ∧
      d.tags = sortRust cmpTag (st.tags.map (sortRust cmpGrammem)) ∧
      d.lemmas = sortRust cmpStr st.lemmas ∧
      d.lemmas_rows = sortRust cmpRow st.lemmas_rows ∧
      buildWordParses d.tags d.lemmas d.lemmas_rows st.word_map = .ok bw ∧
      d.word_parses = sortRust cmpParseList bw.1 ∧
      buildFst d.word_parses bw.2 = .ok f ∧
      Vanga.parse_vangas st.paradigms d.tags = .ok d.paradigms := by
  unfold from_opencorpora at h
  obtain ⟨st, hst, h⟩ := except_bind_ok h
  obtain ⟨bw, hbw, h⟩ := except_bind_ok h
  obtain ⟨f2, hf2, h⟩ := except_bind_ok h
  obtain ⟨par, hpar, h⟩ := except_bind_ok h
  have hfin := except_pure_ok h
  obtain ⟨hd, hf⟩ := Prod.mk.injEq .. ▸ hfin
  subst hd
  subst hf
  exact ⟨st, bw, hst, rfl, rfl, rfl, hbw, rfl, hf2, hpar⟩

/-- C6: in every compiled dictionary, each `Vanga` of the paradigms table
has popularity at least 3, every tag index in each of its items is a valid
index into the tags table, and the vector is sorted by decreasing
popularity. -/
theorem C6_vanga_invariants {lemmata : List Lemma} {links : List Link}
    {d : Dictionary} {f : Fst}
    (h : from_opencorpora lemmata links = .ok (d, f)) :
    (∀ v ∈ d.paradigms, 3 ≤ v.popularity ∧
      ∀ it ∈ v.pfxs, ∀ ti ∈ it.tag, ti < d.tags.length) ∧
    List.Sorted (fun a b : Vanga => b.popularity ≤ a.popularity) d.paradigms := by
  obtain ⟨st, bw, hst, htags, hlem, hrows, hbw, hvp, hfst, hpar⟩ := from_opencorpora_ok h
  have hspec := parse_vangas_spec hpar
  refine ⟨hspec.1, ?_⟩
  apply List.Pairwise.imp ?_ hspec.2
  intro a b hab
  have : ¬ (cmpNat b.popularity a.popularity = .gt) := hab
  rw [cmpNat_gt] at this
  omega

/-! ### Concrete inputs for witnesses and counterexamples -/

def gNoun : Gram := ⟨.ParteSpeech .Noun⟩
def gVerb : Gram := ⟨.ParteSpeech .Verb⟩

/-- Three lemmas sharing stem `кот` and the postfix signature `а`. -/
def vangaLemma (i : Nat) : Lemma :=
  ⟨i, ⟨str "кот", some [gNoun]⟩, some [⟨str "кота", some [gNoun]⟩]⟩

/-- The dictionary compiled from `vangaLemma 1/2/3` with no links. -/
def vangaD : Dictionary :=
  ⟨[[⟨.Word (.Normal 1), 0, 1, 0⟩, ⟨.Word (.Normal 2), 0, 1, 1⟩,
     ⟨.Word (.Normal 3), 0, 1, 2⟩]],
   [[.ParteSpeech .Noun, .ParteSpeech .Noun]],
   [str "кот", str "кот", str "кот"],
   [⟨3, [⟨str "а", .Vanga .Normal, [0]⟩]⟩],
   [[1], [2], [3]]⟩

def vangaF : Fst := [(str "кота", 0)]

/-- Witness for C6 at a concrete compiled dictionary whose paradigm table is
non-empty. -/
theorem C6_vanga_invariants_witness :
    (∀ v ∈ vangaD.paradigms, 3 ≤ v.popularity ∧
      ∀ it ∈ v.pfxs, ∀ ti ∈ it.tag, ti < vangaD.tags.length) ∧
    List.Sorted (fun a b : Vanga => b.popularity ≤ a.popularity) vangaD.paradigms :=
  @C6_vanga_invariants [vangaLemma 1, vangaLemma 2, vangaLemma 3] [] vangaD
    vangaF (by decide)

end MorphRS

namespace MorphRS

def lemma_aa1 : Lemma := ⟨1, ⟨str "аа", some [gNoun]⟩, none⟩
def lemma_aa2 : Lemma := ⟨2, ⟨str "аа", some [gNoun]⟩, none⟩

/-- The dictionary compiled from the single lemma `аа`. -/
def aaD : Dictionary :=
  ⟨[[⟨.Word (.Normal 1), 0, 0, 0⟩]], [[.ParteSpeech .Noun]], [str "аа"], [], [[1]]⟩

def aaF : Fst := [(str "аа", 0)]

/-- Counterexample to C4 as stated: two lemmas sharing the normal-form
string `аа` compile successfully, and the `lemmas` table of the resulting
dictionary is `["аа", "аа"]` — sorted, but with a duplicate, hence not
strictly sorted. -/
theorem C4_counterexample :
    (from_opencorpora [lemma_aa1, lemma_aa2] []).toOption.map
        (fun out => out.1.lemmas) = some [str "аа", str "аа"] ∧
    ¬ List.Nodup [str "аа", str "аа"] :=
  ⟨by decide, by decide⟩

/-- C4 (amended): in every compiled dictionary the four tables `tags`,
`lemmas`, `lemmasRows` and `wordParses` are sorted in non-decreasing order;
they are not strictly sorted in general, because the compiler never
deduplicates them (duplicate lemma strings, tag vectors that become equal
after sorting, equal rows, and equal parse lists survive). -/
theorem C4_tables_sorted {lemmata : List Lemma} {links : List Link}
    {d : Dictionary} {f : Fst}
    (h : from_opencorpora lemmata links = .ok (d, f)) :
    List.Sorted (leOf cmpTag) d.tags ∧
    List.Sorted (leOf cmpStr) d.lemmas ∧
    List.Sorted (leOf cmpRow) d.lemmas_rows ∧
    List.Sorted (leOf cmpParseList) d.word_parses := by
  obtain ⟨st, bw, hst, htags, hlem, hrows, hbw, hvp, hfst, hpar⟩ := from_opencorpora_ok h
  rw [htags, hlem, hrows, hvp]
  exact ⟨sortRust_sorted lawCmpTag.pre _, sortRust_sorted lawCmpStr.pre _,
    sortRust_sorted lawCmpRow.pre _, sortRust_sorted lawCmpParseList.pre _⟩

/-- Witness for C4 at the concrete single-lemma dictionary. -/
theorem C4_tables_sorted_witness :
    List.Sorted (leOf cmpTag) aaD.tags ∧
    List.Sorted (leOf cmpStr) aaD.lemmas ∧
    List.Sorted (leOf cmpRow) aaD.lemmas_rows ∧
    List.Sorted (leOf cmpParseList) aaD.word_parses :=
  @C4_tables_sorted [lemma_aa1] [] aaD aaF (by decide)

end MorphRS

namespace MorphRS

/-! ## C1: case handling -/

theorem char_le_iff {a b : Char} : a ≤ b ↔ a.toNat ≤ b.toNat := by
  rw [Char.le_def, UInt32.le_def]
  exact Iff.rfl

theorem char_toNat_ofNat {n : Nat} (h : n.isValidChar) :
    (Char.ofNat n).toNat = n := by
  unfold Char.ofNat
  rw [dif_pos h]
  rfl

theorem lowerChar_toNat (c : Char) : (lowerChar c).toNat =
    if 65 ≤ c.toNat ∧ c.toNat ≤ 90 then c.toNat + 32
    else if 1040 ≤ c.toNat ∧ c.toNat ≤ 1071 then c.toNat + 32
    else if c.toNat = 1025 then 1105
    else c.toNat := by
  have hA : ('A' ≤ c ∧ c ≤ 'Z') ↔ (65 ≤ c.toNat ∧ c.toNat ≤ 90) := by
    rw [char_le_iff, char_le_iff]; rfl
  have hRu : ('А' ≤ c ∧ c ≤ 'Я') ↔ (1040 ≤ c.toNat ∧ c.toNat ≤ 1071) := by
    rw [char_le_iff, char_le_iff]; rfl
  have hYo : (c = 'Ё') ↔ c.toNat = 1025 := by
    constructor
    · intro h; rw [h]; rfl
    · intro h; exact char_toNat_inj c 'Ё' h
  unfold lowerChar
  by_cases h1 : 'A' ≤ c ∧ c ≤ 'Z'
  · have hn := hA.1 h1
    rw [if_pos h1, if_pos hn]
    exact char_toNat_ofNat (Or.inl (by omega))
  · rw [if_neg h1,
      if_neg (show ¬(65 ≤ c.toNat ∧ c.toNat ≤ 90) from fun hh => h1 (hA.2 hh))]
    by_cases h2 : 'А' ≤ c ∧ c ≤ 'Я'
    · have hn := hRu.1 h2
      rw [if_pos h2, if_pos hn]
      exact char_toNat_ofNat (Or.inl (by omega))
    · rw [if_neg h2,
        if_neg (show ¬(1040 ≤ c.toNat ∧ c.toNat ≤ 1071) from
          fun hh => h2 (hRu.2 hh))]
      by_cases h3 : c = 'Ё'
      · rw [if_pos h3, if_pos (hYo.1 h3)]
        rfl
      · rw [if_neg h3,
          if_neg (show ¬(c.toNat = 1025) from fun hh => h3 (hYo.2 hh))]

theorem lowerChar_idem (c : Char) : lowerChar (lowerChar c) = lowerChar c := by
  apply char_toNat_inj
  rw [lowerChar_toNat (lowerChar c), lowerChar_toNat c]
  split_ifs <;> omega

/-- A string all of whose characters are lowercase-invariant. -/
def LowerStr (s : Str) : Prop := ∀ c ∈ s, lowerChar c = c

theorem lowerStr_toLowercase (w : Str) : LowerStr (toLowercase w) := by
  intro c hc
  obtain ⟨c0, _, rfl⟩ := List.mem_map.1 hc
  exact lowerChar_idem c0

theorem lowerStr_replaceYo {w : Str} (h : LowerStr w) : LowerStr (replaceYo w) := by
  intro c hc
  obtain ⟨c0, hc0, rfl⟩ := List.mem_map.1 hc
  by_cases hy : c0 = 'ё'
  · rw [if_pos hy]
    decide
  · rw [if_neg hy]
    exact h c0 hc0

/-- All word-map keys are lowercase-invariant. -/
def WMKeysLower (wm : WordMap) : Prop := ∀ kv ∈ wm, LowerStr kv.1

theorem wmEntryPush_mem {wm : WordMap} {k0 : Str} {pi : ParseIntermediate}
    {kv : Str × List ParseIntermediate} (h : kv ∈ wmEntryPush wm k0 pi) :
    kv.1 = k0 ∨ ∃ v, (kv.1, v) ∈ wm := by
  induction wm with
  | nil =>
    simp only [wmEntryPush, List.mem_singleton] at h
    subst h
    exact Or.inl rfl
  | cons p rest ih =>
    simp only [wmEntryPush] at h
    rcases hc : cmpStr k0 p.1 with _ | _ | _ <;> rw [hc] at h <;> dsimp only at h
    · rcases List.mem_cons.1 h with rfl | h2
      · exact Or.inl rfl
      · rcases List.mem_cons.1 h2 with rfl | h3
        · exact Or.inr ⟨p.2, List.mem_cons_self _ _⟩
        · exact Or.inr ⟨kv.2, by rw [← Prod.mk.eta (p := kv)] at h3 ⊢; exact List.mem_cons_of_mem _ h3⟩
    · rcases List.mem_cons.1 h with rfl | h2
      · exact Or.inr ⟨p.2, List.mem_cons_self _ _⟩
      · exact Or.inr ⟨kv.2, by rw [← Prod.mk.eta (p := kv)] at h2 ⊢; exact List.mem_cons_of_mem _ h2⟩
    · rcases List.mem_cons.1 h with rfl | h2
      · exact Or.inr ⟨p.2, List.mem_cons_self _ _⟩
      · rcases ih h2 with h3 | ⟨v, h3⟩
        · exact Or.inl h3
        · exact Or.inr ⟨v, List.mem_cons_of_mem _ h3⟩

theorem to_word_tags_keysLower {g : Tag} {wm : WordMap} {ts : List Tag}
    {word nf : Str} {form : Form} {row : List Nat} (h : WMKeysLower wm) :
    WMKeysLower (to_word_tags g wm ts word nf form row).1 := by
  intro kv hkv
  rcases wmEntryPush_mem hkv with hk | ⟨v, hv⟩
  · rw [hk]
    exact lowerStr_toLowercase word
  · exact h (kv.1, v) hv

theorem collect_rest_step_keysLower {lemma_id : Nat} {normalization : Option Str}
    {normal_form : Str} {ig : Tag} {row : List Nat}
    {acc : WordMap × List Tag × List Str} {p : Str × Tag}
    (h : WMKeysLower acc.1) :
    WMKeysLower (collect_rest_step lemma_id normalization normal_form ig row acc p).1 := by
  show WMKeysLower (to_word_tags (p.2 ++ ig) acc.1 acc.2.1 p.1
    (normalization.getD normal_form) (.Word (.Different lemma_id)) row).1
  exact to_word_tags_keysLower h

theorem foldl_rest_keysLower {lemma_id : Nat} {normalization : Option Str}
    {normal_form : Str} {ig : Tag} {row : List Nat} :
    ∀ (rest : List (Str × Tag)) (acc : WordMap × List Tag × List Str),
      WMKeysLower acc.1 →
      WMKeysLower ((rest.foldl
        (collect_rest_step lemma_id normalization normal_form ig row) acc).1) := by
  intro rest
  induction rest with
  | nil => intro acc h; exact h
  | cons p t ih =>
    intro acc h
    exact ih _ (collect_rest_step_keysLower h)

theorem collect_word_tags_keysLower {ld : LemmaDict} {lemma_id : Nat}
    {first : Lemmatization} {normalization : Option Str} {wm : WordMap}
    {ts : List Tag} {row : List Nat} {vw : List Str}
    {out : WordMap × List Tag × List Str} (h : WMKeysLower wm)
    (hc : collect_word_tags ld lemma_id first normalization wm ts row vw = .ok out) :
    WMKeysLower out.1 := by
  unfold collect_word_tags at hc
  obtain ⟨ig, hig, hc⟩ := except_bind_ok hc
  rcases hvar : ld.variants.filter (fun v => !v.isEmpty) with _ | forms <;>
    rw [hvar] at hc <;> dsimp only at hc
  · cases except_pure_ok hc
    exact @to_word_tags_keysLower _ _ ts _ _ _ _ h
  · rcases hforms : LemmaDict.formsList forms with _ | ⟨⟨fw, fg⟩, rest⟩ <;>
      rw [hforms] at hc <;> dsimp only at hc
    · cases hc
    · cases except_pure_ok hc
      exact foldl_rest_keysLower rest _ (@to_word_tags_keysLower _ _ ts _ _ _ _ h)

theorem processCluster_keysLower {lemmata : List Lemma} {st : BuildSt}
    {cluster : Nat × List Nat} {st' : BuildSt} (h : WMKeysLower st.word_map)
    (hc : processCluster lemmata st cluster = .ok st') :
    WMKeysLower st'.word_map := by
  unfold processCluster at hc
  rcases hfind : lemmataFind lemmata cluster.1 with _ | normal <;>
    rw [hfind] at hc <;> dsimp only at hc
  · cases hc
  · obtain ⟨o1, ho1, hc⟩ := except_bind_ok hc
    obtain ⟨lv, hlv, hc⟩ := except_bind_ok hc
    obtain ⟨acc, hacc, hc⟩ := except_bind_ok hc
    obtain ⟨par, hpar, hc⟩ := except_bind_ok hc
    cases except_pure_ok hc
    have hloop := foldlM_except_invariant
      (P := fun acc : WordMap × List Tag × List Str × LemmaVanga × List Nat =>
        WMKeysLower acc.1) ?step cluster.2 _ (collect_word_tags_keysLower h ho1)
      acc hacc
    · exact hloop
    case step =>
      intro b a b' hb hstep
      rcases hf2 : lemmataFind lemmata a with _ | lem <;> rw [hf2] at hstep <;>
        dsimp only at hstep
      · cases hstep
      · obtain ⟨o2, ho2, hstep⟩ := except_bind_ok hstep
        obtain ⟨lv2, hlv2, hstep⟩ := except_bind_ok hstep
        cases except_pure_ok hstep
        exact collect_word_tags_keysLower hb ho2

theorem processLost_keysLower {lemmata : List Lemma} {st : BuildSt}
    {lost_id : Nat} {st' : BuildSt} (h : WMKeysLower st.word_map)
    (hc : processLost lemmata st lost_id = .ok st') :
    WMKeysLower st'.word_map := by
  unfold processLost at hc
  rcases hfind : lemmataFind lemmata lost_id with _ | lem <;>
    rw [hfind] at hc <;> dsimp only at hc
  · cases hc
  · obtain ⟨o1, ho1, hc⟩ := except_bind_ok hc
    obtain ⟨lv, hlv, hc⟩ := except_bind_ok hc
    obtain ⟨par, hpar, hc⟩ := except_bind_ok hc
    cases except_pure_ok hc
    exact collect_word_tags_keysLower h ho1

theorem buildState_keysLower {lemmata : List Lemma} {links : List Link}
    {st : BuildSt} (h : buildState lemmata links = .ok st) :
    WMKeysLower st.word_map := by
  unfold buildState at h
  obtain ⟨st1, hst1, h⟩ := except_bind_ok h
  have h1 : WMKeysLower st1.word_map :=
    foldlM_except_invariant (P := fun st : BuildSt => WMKeysLower st.word_map)
      (fun b a b' hb hstep => processCluster_keysLower hb hstep)
      (collectLemmas links) _ (by intro kv h; cases h) st1 hst1
  exact foldlM_except_invariant (P := fun st : BuildSt => WMKeysLower st.word_map)
    (fun b a b' hb hstep => processLost_keysLower hb hstep)
    st1.all_lemmas _ h1 st h

end MorphRS

namespace MorphRS

theorem foldlM_except_invariant_mem {α β ε : Type _} {f : β → α → Except ε β}
    {P : β → Prop} :
    ∀ (l : List α), (∀ b a b', a ∈ l → P b → f b a = .ok b' → P b') →
      ∀ b, P b → ∀ b', l.foldlM f b = .ok b' → P b' := by
  intro l
  induction l with
  | nil =>
    intro _ b hb b' h
    simp only [List.foldlM_nil] at h
    cases except_pure_ok h
    exact hb
  | cons a rest ih =>
    intro hstep b hb b' h
    rw [List.foldlM_cons] at h
    obtain ⟨b1, h1, h2⟩ := except_bind_ok h
    exact ih (fun b a2 b2 ha2 hb2 hf2 =>
        hstep b a2 b2 (List.mem_cons_of_mem _ ha2) hb2 hf2)
      b1 (hstep b a b1 (List.mem_cons_self _ _) hb h1) b' h2

theorem wpInsert_mem {wp : WordParsesMap} {k : Str} {v : List Parse}
    {kv : Str × List Parse} (h : kv ∈ wpInsert wp k v) :
    kv.1 = k ∨ ∃ v2, (kv.1, v2) ∈ wp := by
  induction wp with
  | nil =>
    simp only [wpInsert, List.mem_singleton] at h
    subst h
    exact Or.inl rfl
  | cons p rest ih =>
    obtain ⟨k', v'⟩ := p
    simp only [wpInsert] at h
    rcases hc : cmpStr k k' with _ | _ | _ <;> rw [hc] at h <;> dsimp only at h
    · rcases List.mem_cons.1 h with rfl | h2
      · exact Or.inl rfl
      · rcases List.mem_cons.1 h2 with rfl | h3
        · exact Or.inr ⟨v', List.mem_cons_self _ _⟩
        · exact Or.inr ⟨kv.2,
            by rw [← Prod.mk.eta (p := kv)] at h3 ⊢; exact List.mem_cons_of_mem _ h3⟩
    · rcases List.mem_cons.1 h with rfl | h2
      · exact Or.inl rfl
      · exact Or.inr ⟨kv.2,
          by rw [← Prod.mk.eta (p := kv)] at h2 ⊢; exact List.mem_cons_of_mem _ h2⟩
    · rcases List.mem_cons.1 h with rfl | h2
      · exact Or.inr ⟨v', List.mem_cons_self _ _⟩
      · rcases ih h2 with h3 | ⟨v2, h3⟩
        · exact Or.inl h3
        · exact Or.inr ⟨v2, List.mem_cons_of_mem _ h3⟩

theorem buildWordParses_keysLower {tags : List Tag} {lemmas : List Str}
    {rows : List (List Nat)} {wm : WordMap}
    {bw : List (List Parse) × WordParsesMap} (hwm : WMKeysLower wm)
    (h : buildWordParses tags lemmas rows wm = .ok bw) :
    ∀ kv ∈ bw.2, LowerStr kv.1 := by
  unfold buildWordParses at h
  refine foldlM_except_invariant_mem
    (P := fun acc : List (List Parse) × WordParsesMap =>
      ∀ kv ∈ acc.2, LowerStr kv.1) wm ?step ([], [])
    (by intro kv h; cases h) bw h
  intro b a b' ha hb hf
  obtain ⟨parses, hparses, hf⟩ := except_bind_ok hf
  cases except_pure_ok hf
  intro kv hkv
  dsimp only at hkv
  have hkey : LowerStr a.1 := hwm a ha
  by_cases hyo : 'ё' ∈ a.1
  · rw [if_pos hyo] at hkv
    rcases wpInsert_mem hkv with hk | ⟨v2, h2⟩
    · rw [hk]
      exact lowerStr_replaceYo hkey
    · rcases wpInsert_mem h2 with hk | ⟨v3, h3⟩
      · rw [hk]
        exact hkey
      · exact hb (kv.1, v3) h3
  · rw [if_neg hyo] at hkv
    rcases wpInsert_mem hkv with hk | ⟨v2, h2⟩
    · rw [hk]
      exact hkey
    · exact hb (kv.1, v2) h2

theorem buildFst_keysLower {vec_parse : List (List Parse)} {wp : WordParsesMap}
    {f : Fst} (hwp : ∀ kv ∈ wp, LowerStr kv.1)
    (h : buildFst vec_parse wp = .ok f) :
    ∀ kv ∈ f, LowerStr kv.1 := by
  unfold buildFst at h
  refine foldlM_except_invariant_mem
    (P := fun acc : Fst => ∀ kv ∈ acc, LowerStr kv.1) wp ?step []
    (by intro kv h; cases h) f h
  intro b a b' ha hb hf
  rcases hbs : binarySearch cmpParseList vec_parse a.2 with _ | i <;>
    rw [hbs] at hf <;> dsimp only at hf
  · cases hf
  · cases except_pure_ok hf
    intro kv hkv
    rcases List.mem_append.1 hkv with h2 | h2
    · exact hb kv h2
    · rcases List.mem_singleton.1 h2 with rfl
      exact hwp a ha

/-- Every key of the compiled FST is invariant under lowercasing. -/
theorem from_opencorpora_fst_keysLower {lemmata : List Lemma}
    {links : List Link} {d : Dictionary} {f : Fst}
    (h : from_opencorpora lemmata links = .ok (d, f)) :
    ∀ kv ∈ f, LowerStr kv.1 := by
  obtain ⟨st, bw, hst, htags, hlem, hrows, hbw, hvp, hfst, hpar⟩ :=
    from_opencorpora_ok h
  exact buildFst_keysLower
    (buildWordParses_keysLower (buildState_keysLower hst) hbw) hfst

instance (s : Str) : Decidable (LowerStr s) := by
  unfold LowerStr
  infer_instance

/-- The analyzer built from the single lemma `аа`. -/
def aaA : MorphAnalyzer := MorphAnalyzer.from_dictionary aaD aaF

/-- Counterexample to C1 as stated: in the analyzer compiled from the single
lemma `аа`, the query `Аа` is unknown while its lowercased form `аа` is
known — `parse_word`, `normalized_word` and `is_known` pass the query to the
FST lookup verbatim, without lowercasing it first, so lookups are
case-sensitive even though every key was lowercased at insertion time. -/
theorem C1_counterexample :
    from_opencorpora [lemma_aa1] [] = .ok (aaD, aaF) ∧
    is_known aaA (str "Аа") = false ∧
    is_known aaA (toLowercase (str "Аа")) = true ∧
    parse_word aaA (str "Аа") ≠ parse_word aaA (toLowercase (str "Аа")) :=
  ⟨by decide, by decide, by decide, by decide⟩

/-- C1 (amended): every key inserted into the compiled FST is already
lowercase (lowercasing does happen at insertion time), but queries are NOT
lowercased before the lookup: any query containing an uppercase letter
misses every key, so `is_known` returns `false` on it. -/
theorem C1_lowercase_keys {lemmata : List Lemma} {links : List Link}
    {d : Dictionary} {f : Fst}
    (h : from_opencorpora lemmata links = .ok (d, f)) :
    (∀ kv ∈ f, LowerStr kv.1) ∧
    ∀ w : Str, ¬ LowerStr w →
      is_known (MorphAnalyzer.from_dictionary d f) w = false := by
  have hk := from_opencorpora_fst_keysLower h
  refine ⟨hk, fun w hw => ?_⟩
  have hnone : ((MorphAnalyzer.from_dictionary d f).fst.find?
      (fun p => p.1 == w)) = none := by
    rw [List.find?_eq_none]
    intro x hx
    simp only [beq_iff_eq]
    intro hew
    exact hw (hew ▸ hk x hx)
  simp only [is_known, fstGet, hnone]
  rfl

/-- Witness: the amended C1 statement at the concrete one-lemma analyzer
and the concrete uppercase query `Аа`. -/
theorem C1_lowercase_keys_witness :
    ((∀ kv ∈ aaF, LowerStr kv.1) ∧
      ∀ w : Str, ¬ LowerStr w →
        is_known (MorphAnalyzer.from_dictionary aaD aaF) w = false) ∧
    is_known (MorphAnalyzer.from_dictionary aaD aaF) (str "Аа") = false :=
  have hmain := @C1_lowercase_keys [lemma_aa1] [] aaD aaF (by decide)
  ⟨hmain, hmain.2 (str "Аа") (by decide)⟩

end MorphRS

namespace MorphRS

/-- C10: for a word absent from the FST, `inflect_inizio`, `inflect_forms`
and `declension_word` return the `FutureRelease` error — unlike `parse_word`
and `normalized_word`, which fall back to the OOV predictor and return an
ordinary (possibly empty) result; and for in-FST words an inflection run
that matches no form yields `none`, never `some []`. -/
theorem C10_inflect_declension_oov (a : MorphAnalyzer) (w : Str)
    (g : List Grammem) :
    (fstGet a w = none →
      inflect_inizio a w = .error .FutureRelease ∧
      inflect_forms a w g = .error .FutureRelease ∧
      declension_word a w = .error .FutureRelease ∧
      (vangovanie a w = .ok none →
        parse_word a w = .ok [] ∧ normalized_word a w = .ok [])) ∧
    ∀ gs res, inflect_word a w gs = .ok res → res ≠ some [] := by
  constructor
  · intro h
    refine ⟨?_, ?_, ?_, ?_⟩
    · unfold inflect_inizio inflect_word
      rw [h]
    · unfold inflect_forms inflect_word
      rw [h]
    · unfold declension_word
      rw [h]
    · intro hv
      constructor
      · unfold parse_word
        rw [h]
        dsimp only
        rw [hv]
        rfl
      · unfold normalized_word
        rw [h]
        dsimp only
        rw [hv]
        rfl
  · intro gs res h hcontra
    subst hcontra
    unfold inflect_word at h
    rcases hfst : fstGet a w with _ | cid <;> rw [hfst] at h <;> dsimp only at h
    · cases h
    · obtain ⟨vec, hvec, h⟩ := except_bind_ok h
      obtain ⟨inflect, hinf, h⟩ := except_bind_ok h
      by_cases he : inflect.isEmpty
      · rw [if_pos he] at h
        cases except_pure_ok h
      · rw [if_neg he] at h
        have h2 := except_pure_ok h
        injection h2 with h3
        subst h3
        exact he rfl

/-- Witness: the C10 statement instantiated at the one-lemma analyzer, the
out-of-vocabulary query `б` and the in-vocabulary query `аа`. -/
theorem C10_inflect_declension_oov_witness :
    (inflect_inizio aaA (str "б") = .error .FutureRelease ∧
     inflect_forms aaA (str "б") [] = .error .FutureRelease ∧
     declension_word aaA (str "б") = .error .FutureRelease ∧
     (parse_word aaA (str "б") = .ok [] ∧
      normalized_word aaA (str "б") = .ok [])) ∧
    (some [(⟨str "аа", [.ParteSpeech .Noun], str "аа", .Dictionary⟩ : InflectWord)]
      ≠ some []) :=
  have h1 := (C10_inflect_declension_oov aaA (str "б") []).1 (by decide)
  ⟨⟨h1.1, h1.2.1, h1.2.2.1, h1.2.2.2 (by decide)⟩,
   (C10_inflect_declension_oov aaA (str "аа") []).2 none
     (some [⟨str "аа", [.ParteSpeech .Noun], str "аа", .Dictionary⟩]) (by decide)⟩

end MorphRS

namespace MorphRS

/-- Counterexample to C9 as stated: a predictor-produced `ParsedWord`
displays its method as `Method::KnowPrefix(по)` — the `derive_more`
attribute `display(fmt = "KnowPrefix(...)")` drops the second `n` and the
`Method::Vangovanie` arm forwards to the inner display without any
`Vangovanie(...)` wrapper — so the claimed rendering
`Method::Vangovanie(KnownPrefix(по))` never occurs. -/
theorem C9_counterexample :
    ParsedWord.display ⟨str "поаа", [.ParteSpeech .Noun], str "аа",
        .Vangovanie (.KnownPrefix (str "по"))⟩ =
      str "ParsedWord = 'поаа', tags: [Noun], normal_form = 'аа', Method::KnowPrefix(по)" ∧
    ParsedWord.display ⟨str "поаа", [.ParteSpeech .Noun], str "аа",
        .Vangovanie (.KnownPrefix (str "по"))⟩ ≠
      str "ParsedWord = 'поаа', tags: [Noun], normal_form = 'аа', Method::Vangovanie(KnownPrefix(по))" :=
  ⟨by decide, by decide⟩

/-- C9 (amended): a `ParsedWord` prints as
`ParsedWord = 'WORD', tags: [T1, T2, ...], normal_form = 'LEMMA', Method::KIND`
where KIND is `Dictionary`, `KnowPrefix(p)`, `UnknowPrefix(p)` or `Postfix`
(no `Vangovanie(...)` wrapper, and `Know`/`Unknow` without the second `n`),
and a list of parsed words prints its entries separated by `,` followed by a
newline. -/
theorem C9_display (pw : ParsedWord) (l : List ParsedWord) :
    pw.display =
      str "ParsedWord = '" ++ pw.word ++ str "', " ++ str "tags: [" ++
        sepConcat (str ", ") (pw.tags.map Grammem.display) ++ str "], " ++
        str "normal_form = '" ++ pw.normal_form ++ str "', " ++ str "Method::" ++
        (match pw.method with
         | .Dictionary => str "Dictionary"
         | .Vangovanie (.KnownPrefix p) => str "KnowPrefix(" ++ p ++ str ")"
         | .Vangovanie (.UnknownPrefix p) => str "UnknowPrefix(" ++ p ++ str ")"
         | .Vangovanie .Postfix => str "Postfix") ∧
    ParsedWords.display l = sepConcat (str ",\n") (l.map ParsedWord.display) := by
  constructor
  · unfold ParsedWord.display
    rw [displayLoop_eq_sepConcat]
    rcases pw with ⟨w, t, nf, m⟩
    rcases m with _ | v
    · rfl
    · rcases v with p | p | _ <;> rfl
  · unfold ParsedWords.display
    rw [displayLoop_eq_sepConcat]

end MorphRS

namespace MorphRS

/-! ## C5: FST keys and parse lists -/

theorem wpInsert_self (wp : WordParsesMap) (k : Str) (v : List Parse) :
    (k, v) ∈ wpInsert wp k v := by
  induction wp with
  | nil => exact List.mem_singleton.2 rfl
  | cons p rest ih =>
    obtain ⟨k', v'⟩ := p
    simp only [wpInsert]
    rcases hc : cmpStr k k' with _ | _ | _ <;> dsimp only
    · exact List.mem_cons_self _ _
    · exact List.mem_cons_self _ _
    · exact List.mem_cons_of_mem _ ih

theorem wpInsert_keys_preserved {wp : WordParsesMap} {k0 : Str}
    {v0 : List Parse} (k : Str) (v : List Parse) (h : (k0, v0) ∈ wp) :
    ∃ v2, (k0, v2) ∈ wpInsert wp k v := by
  induction wp with
  | nil => cases h
  | cons p rest ih =>
    obtain ⟨k', v'⟩ := p
    simp only [wpInsert]
    rcases hc : cmpStr k k' with _ | _ | _ <;> dsimp only
    · exact ⟨v0, List.mem_cons_of_mem _ h⟩
    · rcases List.mem_cons.1 h with heq | h2
      · injection heq with h1 h2
        subst h1
        have hk : k = k0 := (lawCmpStr.eq_iff k k0).1 hc
        subst hk
        exact ⟨v, List.mem_cons_self _ _⟩
      · exact ⟨v0, List.mem_cons_of_mem _ h2⟩
    · rcases List.mem_cons.1 h with heq | h2
      · injection heq with h1 h2
        subst h1
        subst h2
        exact ⟨v0, List.mem_cons_self _ _⟩
      · obtain ⟨v2, h3⟩ := ih h2
        exact ⟨v2, List.mem_cons_of_mem _ h3⟩

theorem yo_not_mem_replaceYo (s : Str) : 'ё' ∉ replaceYo s := by
  intro h
  obtain ⟨c, _, hc⟩ := List.mem_map.1 h
  by_cases hy : c = 'ё'
  · rw [if_pos hy] at hc
    exact absurd hc (by decide)
  · rw [if_neg hy] at hc
    exact hy hc

/-- Invariant carried through the word-parses assembly: every key containing
`ё` has its `е`-substituted companion key in the map. -/
def WPYo (wp : WordParsesMap) : Prop :=
  ∀ kv ∈ wp, 'ё' ∈ kv.1 → ∃ v2, (replaceYo kv.1, v2) ∈ wp

theorem buildWordParses_yo {tags : List Tag} {lemmas : List Str}
    {rows : List (List Nat)} {wm : WordMap}
    {bw : List (List Parse) × WordParsesMap}
    (h : buildWordParses tags lemmas rows wm = .ok bw) : WPYo bw.2 := by
  unfold buildWordParses at h
  refine foldlM_except_invariant
    (P := fun acc : List (List Parse) × WordParsesMap => WPYo acc.2)
    ?step wm _ (by intro kv h; cases h) bw h
  intro b a b' hb hf
  obtain ⟨parses, hparses, hf⟩ := except_bind_ok hf
  cases except_pure_ok hf
  intro kv hkv hyo
  dsimp only at hkv ⊢
  by_cases hya : 'ё' ∈ a.1
  · rw [if_pos hya] at hkv ⊢
    rcases wpInsert_mem hkv with hk | ⟨v, h1⟩
    · exact absurd (hk ▸ hyo) (yo_not_mem_replaceYo a.1)
    · rcases wpInsert_mem h1 with hk | ⟨v', h2⟩
      · exact ⟨parses, hk ▸ wpInsert_self _ _ _⟩
      · obtain ⟨v2, h3⟩ := hb (kv.1, v') h2 hyo
        obtain ⟨v3, h4⟩ := wpInsert_keys_preserved a.1 parses h3
        exact wpInsert_keys_preserved (replaceYo a.1) parses h4
  · rw [if_neg hya] at hkv ⊢
    rcases wpInsert_mem hkv with hk | ⟨v, h1⟩
    · exact absurd (hk ▸ hyo) hya
    · obtain ⟨v2, h3⟩ := hb (kv.1, v) h1 hyo
      exact wpInsert_keys_preserved a.1 parses h3

theorem buildWordParses_vec_sorted {tags : List Tag} {lemmas : List Str}
    {rows : List (List Nat)} {wm : WordMap}
    {bw : List (List Parse) × WordParsesMap}
    (h : buildWordParses tags lemmas rows wm = .ok bw) :
    ∀ l ∈ bw.1, List.Sorted (leOf cmpParse) l := by
  unfold buildWordParses at h
  refine foldlM_except_invariant
    (P := fun acc : List (List Parse) × WordParsesMap =>
      ∀ l ∈ acc.1, List.Sorted (leOf cmpParse) l)
    ?step wm _ (by intro l h; cases h) bw h
  intro b a b' hb hf
  obtain ⟨parses, hparses, hf⟩ := except_bind_ok hf
  cases except_pure_ok hf
  intro l hl
  dsimp only at hl
  rcases List.mem_append.1 hl with h1 | h1
  · exact hb l h1
  · rcases List.mem_singleton.1 h1 with rfl
    unfold internParses at hparses
    obtain ⟨p0, hp0, hpure⟩ := except_bind_ok hparses
    cases except_pure_ok hpure
    exact sortRust_sorted lawCmpParse.pre p0

/-- The per-entry step of `buildFst` (named so inductions can target it). -/
def buildFstStep (vec_parse : List (List Parse)) (acc : Fst)
    (kv : Str × List Parse) : Except DictionaryErr Fst :=
  match binarySearch cmpParseList vec_parse kv.2 with
  | some i => pure (acc ++ [(kv.1, i)])
  | none => Except.error (DictionaryErr.BinaryParse kv.2)

theorem buildFst_eq_foldlM (vec_parse : List (List Parse))
    (wp : WordParsesMap) :
    buildFst vec_parse wp = wp.foldlM (buildFstStep vec_parse) [] := rfl

theorem buildFstGo_entries {vec_parse : List (List Parse)} :
    ∀ (wp : WordParsesMap) (acc out : Fst),
      wp.foldlM (buildFstStep vec_parse) acc = .ok out →
      (∀ kv ∈ out, kv ∈ acc ∨ ∃ ps, (kv.1, ps) ∈ wp ∧
          binarySearch cmpParseList vec_parse ps = some kv.2) ∧
      (∀ kv ∈ acc, kv ∈ out) ∧
      (∀ e ∈ wp, ∃ v, (e.1, v) ∈ out) := by
  intro wp
  induction wp with
  | nil =>
    intro acc out h
    simp only [List.foldlM_nil] at h
    cases except_pure_ok h
    exact ⟨fun kv hkv => Or.inl hkv, fun kv hkv => hkv,
      fun e he => absurd he (by simp)⟩
  | cons e rest ih =>
    intro acc out h
    rw [List.foldlM_cons] at h
    obtain ⟨acc1, h1, h2⟩ := except_bind_ok h
    unfold buildFstStep at h1
    rcases hbs : binarySearch cmpParseList vec_parse e.2 with _ | i <;>
      rw [hbs] at h1 <;> dsimp only at h1
    · cases h1
    · cases except_pure_ok h1
      obtain ⟨hout, hacc, hkeys⟩ := ih (acc ++ [(e.1, i)]) out h2
      refine ⟨?_, ?_, ?_⟩
      · intro kv hkv
        rcases hout kv hkv with hin | ⟨ps, hps, hbs2⟩
        · rcases List.mem_append.1 hin with hin2 | hin2
          · exact Or.inl hin2
          · rcases List.mem_singleton.1 hin2 with rfl
            exact Or.inr ⟨e.2, List.mem_cons_self _ _, hbs⟩
        · exact Or.inr ⟨ps, List.mem_cons_of_mem _ hps, hbs2⟩
      · intro kv hkv
        exact hacc kv (List.mem_append.2 (Or.inl hkv))
      · intro e2 he2
        rcases List.mem_cons.1 he2 with rfl | he3
        · exact ⟨i,
            hacc (e2.1, i) (List.mem_append.2 (Or.inr (List.mem_singleton.2 rfl)))⟩
        · exact hkeys e2 he3

theorem buildFst_entries {vec_parse : List (List Parse)} {wp : WordParsesMap}
    {f : Fst} (h : buildFst vec_parse wp = .ok f) :
    (∀ kv ∈ f, ∃ ps, (kv.1, ps) ∈ wp ∧
        binarySearch cmpParseList vec_parse ps = some kv.2) ∧
    (∀ e ∈ wp, ∃ v, (e.1, v) ∈ f) := by
  rw [buildFst_eq_foldlM] at h
  obtain ⟨hout, hacc, hkeys⟩ := buildFstGo_entries wp [] f h
  refine ⟨fun kv hkv => ?_, hkeys⟩
  rcases hout kv hkv with hin | h2
  · cases hin
  · exact h2

/-- C5 (amended): for every compiled dictionary and FST entry `(k, v)`,
`wordParses[v]` exists and is a parse list sorted by the parse order — it is
the parse list the word-parses map holds under key `k`, which is the surface
word's own list only in the absence of `ё`-collisions (see the
counterexample: the `ё→е` substituted insert overwrites a really existing
key) — and if `k` contains `ё`, its `е`-substituted variant is an FST key
too. -/
theorem C5_fst_parse_lists {lemmata : List Lemma} {links : List Link}
    {d : Dictionary} {f : Fst}
    (h : from_opencorpora lemmata links = .ok (d, f)) :
    (∀ kv ∈ f, ∃ ps, d.word_parses.get? kv.2 = some ps ∧
        List.Sorted (leOf cmpParse) ps) ∧
    (∀ kv ∈ f, 'ё' ∈ kv.1 → ∃ v2, (replaceYo kv.1, v2) ∈ f) := by
  obtain ⟨st, bw, hst, htags, hlem, hrows, hbw, hvp, hfst, hpar⟩ :=
    from_opencorpora_ok h
  obtain ⟨hent, hkeys⟩ := buildFst_entries hfst
  constructor
  · intro kv hkv
    obtain ⟨ps, hps, hbs⟩ := hent kv hkv
    have hsome := binarySearch_some_eq lawCmpParseList hbs
    refine ⟨ps, hsome, ?_⟩
    obtain ⟨hlt, hget⟩ := List.get?_eq_some.1 hsome
    have hmem : ps ∈ d.word_parses := hget ▸ List.get_mem d.word_parses kv.2 hlt
    rw [hvp] at hmem
    have hmem2 := (sortRust_mem cmpParseList bw.1 ps).1 hmem
    exact buildWordParses_vec_sorted hbw ps hmem2
  · intro kv hkv hyo
    obtain ⟨ps, hps, hbs⟩ := hent kv hkv
    obtain ⟨v2, h2⟩ := buildWordParses_yo hbw (kv.1, ps) hps hyo
    exact hkeys (replaceYo kv.1, v2) h2

end MorphRS

namespace MorphRS

def lemma_yozh : Lemma := ⟨1, ⟨str "ёж", some [gNoun]⟩, none⟩
def lemma_ezh : Lemma := ⟨2, ⟨str "еж", some [gVerb]⟩, none⟩

/-- The dictionary compiled from the noun lemma `ёж` and the verb lemma
`еж`. -/
def yozhD : Dictionary :=
  ⟨[[⟨.Word (.Normal 1), 0, 1, 0⟩], [⟨.Word (.Normal 2), 1, 0, 1⟩]],
   [[.ParteSpeech .Noun], [.ParteSpeech .Verb]],
   [str "еж", str "ёж"], [], [[1], [2]]⟩

def yozhF : Fst := [(str "еж", 0), (str "ёж", 0)]

/-- Counterexample to C5 as stated: compiling the noun `ёж` together with
the really existing verb `еж` maps BOTH FST keys to value 0, whose parse
list is the noun parse of `ёж` (its normal-form index 1 resolves to `ёж`):
the `ё→е` substituted insert for `ёж` overwrites the entry of the real word
`еж` in the word-parses map, so `wordParses[v]` for the key `еж` is NOT the
parse list of the surface word `еж` — that list survives, unreferenced, as
a different element of `wordParses`. -/
theorem C5_counterexample :
    from_opencorpora [lemma_yozh, lemma_ezh] [] = .ok (yozhD, yozhF) ∧
    (str "еж", 0) ∈ yozhF ∧
    yozhD.word_parses.get? 0 = some [⟨.Word (.Normal 1), 0, 1, 0⟩] ∧
    yozhD.lemmas.get? 1 = some (str "ёж") ∧
    [(⟨.Word (.Normal 2), 1, 0, 1⟩ : Parse)] ∈ yozhD.word_parses ∧
    ([(⟨.Word (.Normal 2), 1, 0, 1⟩ : Parse)] ≠ [⟨.Word (.Normal 1), 0, 1, 0⟩]) :=
  ⟨by decide, by decide, by decide, by decide, by decide, by decide⟩

/-- Witness: the amended C5 statement at the two-lemma `ёж`/`еж` compile,
whose FST has a `ё`-containing key. -/
theorem C5_fst_parse_lists_witness :
    (∀ kv ∈ yozhF, ∃ ps, yozhD.word_parses.get? kv.2 = some ps ∧
        List.Sorted (leOf cmpParse) ps) ∧
    (∀ kv ∈ yozhF, 'ё' ∈ kv.1 → ∃ v2, (replaceYo kv.1, v2) ∈ yozhF) :=
  @C5_fst_parse_lists [lemma_yozh, lemma_ezh] [] yozhD yozhF (by decide)

end MorphRS

namespace MorphRS

/-! ## C7: the known-prefix phase of the OOV predictor -/

theorem except_ok_bind {α β ε : Type _} (x : α) (f : α → Except ε β) :
    (Except.ok x >>= f) = f x := rfl

/-- What one `vangaEmit` step can do: skip an UNPRODUCTIVE parse, or append
exactly one candidate with the phase's method and score. -/
theorem vangaEmit_out {a : MorphAnalyzer} {m : Vangovanie} {sc : ℚ}
    {acc acc' : List VangovanieRes} {q : Parse}
    (h : vangaEmit a m sc acc q = .ok acc') :
    (∃ tag, getTag a q.tag = .ok tag ∧
      tag.any (fun g => g ∈ UNPRODUCTIVE) = true ∧ acc' = acc) ∨
    (∃ tag nf, getTag a q.tag = .ok tag ∧
      tag.any (fun g => g ∈ UNPRODUCTIVE) = false ∧
      getLemmas a q.normal_form = .ok nf ∧
      acc' = acc ++ [⟨tag, q.form.switch_vanga, m, nf, sc⟩]) := by
  unfold vangaEmit at h
  obtain ⟨tag, htag, h⟩ := except_bind_ok h
  rcases hB : tag.any (fun g => g ∈ UNPRODUCTIVE) with _ | _ <;> rw [hB] at h
  · rw [if_neg (by decide)] at h
    obtain ⟨nf, hnf, h⟩ := except_bind_ok h
    cases except_pure_ok h
    exact Or.inr ⟨tag, nf, htag, hB, hnf, rfl⟩
  · rw [if_pos rfl] at h
    cases except_pure_ok h
    exact Or.inl ⟨tag, htag, hB, rfl⟩

theorem vangaEmit_mono {a : MorphAnalyzer} {m : Vangovanie} {sc : ℚ}
    {acc acc' : List VangovanieRes} {q : Parse} {x : VangovanieRes}
    (hx : x ∈ acc) (h : vangaEmit a m sc acc q = .ok acc') : x ∈ acc' := by
  rcases vangaEmit_out h with ⟨tag, _, _, rfl⟩ | ⟨tag, nf, _, _, _, rfl⟩
  · exact hx
  · exact List.mem_append.2 (Or.inl hx)

theorem vangaEmit_fold_mono {a : MorphAnalyzer} {m : Vangovanie} {sc : ℚ}
    {x : VangovanieRes} {parses : List Parse}
    {acc out : List VangovanieRes} (hx : x ∈ acc)
    (h : parses.foldlM (vangaEmit a m sc) acc = .ok out) : x ∈ out :=
  foldlM_except_invariant (P := fun b => x ∈ b)
    (fun b q b' hb hf => vangaEmit_mono hb hf) parses acc hx out h

theorem vangaEmit_fold_adds {a : MorphAnalyzer} {m : Vangovanie} {sc : ℚ}
    {parse : Parse} {tag : Tag} {nf : Str}
    (htag : getTag a parse.tag = .ok tag)
    (hprod : tag.any (fun g => g ∈ UNPRODUCTIVE) = false)
    (hnf : getLemmas a parse.normal_form = .ok nf) :
    ∀ (parses : List Parse) (acc out : List VangovanieRes),
      parse ∈ parses → parses.foldlM (vangaEmit a m sc) acc = .ok out →
      (⟨tag, parse.form.switch_vanga, m, nf, sc⟩ : VangovanieRes) ∈ out := by
  intro parses
  induction parses with
  | nil => intro acc out hmem; cases hmem
  | cons q t ih =>
    intro acc out hmem h
    rw [List.foldlM_cons] at h
    obtain ⟨acc1, h1, h2⟩ := except_bind_ok h
    rcases List.mem_cons.1 hmem with rfl | hmem2
    · rcases vangaEmit_out h1 with ⟨tag2, htag2, hB2, rfl⟩ |
        ⟨tag2, nf2, htag2, hB2, hnf2, rfl⟩
      · rw [htag] at htag2
        injection htag2 with htag2
        subst htag2
        rw [hprod] at hB2
        cases hB2
      · rw [htag] at htag2
        injection htag2 with htag2
        subst htag2
        rw [hnf] at hnf2
        injection hnf2 with hnf2
        subst hnf2
        exact vangaEmit_fold_mono
          (List.mem_append.2 (Or.inr (List.mem_singleton.2 rfl))) h2
    · exact ih acc1 out hmem2 h2

theorem vangaPhase1Step_mono {a : MorphAnalyzer} {word : Str}
    {x : VangovanieRes} {b b' : List VangovanieRes} {p : Str}
    (hx : x ∈ b) (h : vangaPhase1Step a word b p = .ok b') : x ∈ b' := by
  unfold vangaPhase1Step at h
  rcases hs : stripPref p word with _ | stem <;> rw [hs] at h <;> dsimp only at h
  · cases except_pure_ok h
    exact hx
  · by_cases hl : stem.length < 3
    · rw [if_pos hl] at h
      cases except_pure_ok h
      exact hx
    · rw [if_neg hl] at h
      rcases hf : fstGet a stem with _ | id <;> rw [hf] at h <;> dsimp only at h
      · cases except_pure_ok h
        exact hx
      · obtain ⟨parses, hp, h⟩ := except_bind_ok h
        exact vangaEmit_fold_mono hx h

theorem vangaPhase2Step_mono {a : MorphAnalyzer} {word : Str}
    {x : VangovanieRes} {b b' : List VangovanieRes} {i : Nat}
    (hx : x ∈ b) (h : vangaPhase2Step a word b i = .ok b') : x ∈ b' := by
  unfold vangaPhase2Step at h
  dsimp only at h
  by_cases hk : word.take i ∈ KNOWN_PREFIX
  · rw [if_pos hk] at h
    cases except_pure_ok h
    exact hx
  · rw [if_neg hk] at h
    by_cases hl : (word.drop i).length < 3
    · rw [if_pos hl] at h
      cases except_pure_ok h
      exact hx
    · rw [if_neg hl] at h
      rcases hf : fstGet a (word.drop i) with _ | id <;> rw [hf] at h <;>
        dsimp only at h
      · cases except_pure_ok h
        exact hx
      · obtain ⟨parses, hp, h⟩ := except_bind_ok h
        exact vangaEmit_fold_mono hx h

theorem vangaPhase1Step_adds {a : MorphAnalyzer} {word p stem : Str} {id : Nat}
    {parses : List Parse} {parse : Parse} {tag : Tag} {nf : Str}
    {b1 b2 : List VangovanieRes}
    (hstrip : stripPref p word = some stem)
    (hlen : ¬ stem.length < 3)
    (hstem : fstGet a stem = some id)
    (hparses : getParse a id = .ok parses)
    (hparse : parse ∈ parses)
    (htag : getTag a parse.tag = .ok tag)
    (hprod : tag.any (fun g => g ∈ UNPRODUCTIVE) = false)
    (hnf : getLemmas a parse.normal_form = .ok nf)
    (h : vangaPhase1Step a word b1 p = .ok b2) :
    (⟨tag, parse.form.switch_vanga, .KnownPrefix p, nf, (3 : ℚ)/4⟩ :
      VangovanieRes) ∈ b2 := by
  unfold vangaPhase1Step at h
  rw [hstrip] at h
  dsimp only at h
  rw [if_neg hlen, hstem] at h
  dsimp only at h
  obtain ⟨parses2, hp2, h⟩ := except_bind_ok h
  rw [hparses] at hp2
  injection hp2 with hp2
  subst hp2
  exact vangaEmit_fold_adds htag hprod hnf _ b1 b2 hparse h

/-- The candidate built for `parse` by the known-prefix phase at prefix
`p`. -/
theorem vangovanie_candidates_mem {a : MorphAnalyzer} {word p stem : Str}
    {id : Nat} {parses : List Parse} {parse : Parse} {tag : Tag} {nf : Str}
    {all : List VangovanieRes}
    (hp : p ∈ KNOWN_PREFIX)
    (hstrip : stripPref p word = some stem)
    (hlen : ¬ stem.length < 3)
    (hstem : fstGet a stem = some id)
    (hparses : getParse a id = .ok parses)
    (hparse : parse ∈ parses)
    (htag : getTag a parse.tag = .ok tag)
    (hprod : tag.any (fun g => g ∈ UNPRODUCTIVE) = false)
    (hnf : getLemmas a parse.normal_form = .ok nf)
    (hall : vangovanie_candidates a word = .ok all) :
    (⟨tag, parse.form.switch_vanga, .KnownPrefix p, nf, (3 : ℚ)/4⟩ :
      VangovanieRes) ∈ all := by
  unfold vangovanie_candidates at hall
  obtain ⟨phase1, hph1, hall⟩ := except_bind_ok hall
  obtain ⟨l1, l2, hsplit⟩ := List.append_of_mem hp
  rw [hsplit, List.foldlM_append] at hph1
  obtain ⟨b1, hb1, hph1⟩ := except_bind_ok hph1
  rw [List.foldlM_cons] at hph1
  obtain ⟨b2, hb2, hph1⟩ := except_bind_ok hph1
  have hmem1 := vangaPhase1Step_adds hstrip hlen hstem hparses hparse htag
    hprod hnf hb2
  have hmem2 : _ ∈ phase1 := foldlM_except_invariant
    (P := fun acc : List VangovanieRes => _ ∈ acc)
    (fun b q b' hb hf => vangaPhase1Step_mono hb hf) l2 b2 hmem1 phase1 hph1
  exact foldlM_except_invariant
    (P := fun acc : List VangovanieRes => _ ∈ acc)
    (fun b q b' hb hf => vangaPhase2Step_mono hb hf) _ phase1 hmem2 all hall

theorem vangaEmit_fold_no_postfix {a : MorphAnalyzer} {m : Vangovanie}
    {sc : ℚ} (hm : m ≠ .Postfix) {parses : List Parse}
    {acc out : List VangovanieRes}
    (hacc : ∀ r ∈ acc, r.method ≠ .Postfix)
    (h : parses.foldlM (vangaEmit a m sc) acc = .ok out) :
    ∀ r ∈ out, r.method ≠ .Postfix := by
  refine foldlM_except_invariant
    (P := fun b : List VangovanieRes => ∀ r ∈ b, r.method ≠ .Postfix)
    ?step parses acc hacc out h
  intro b q b' hb hf
  rcases vangaEmit_out hf with ⟨tag, _, _, rfl⟩ | ⟨tag, nf, _, _, _, rfl⟩
  · exact hb
  · intro r hr
    rcases List.mem_append.1 hr with h2 | h2
    · exact hb r h2
    · rcases List.mem_singleton.1 h2 with rfl
      exact hm

theorem vangaPhase1Step_no_postfix {a : MorphAnalyzer} {word : Str}
    {b b' : List VangovanieRes} {p : Str}
    (hb : ∀ r ∈ b, r.method ≠ .Postfix)
    (h : vangaPhase1Step a word b p = .ok b') :
    ∀ r ∈ b', r.method ≠ .Postfix := by
  unfold vangaPhase1Step at h
  rcases hs : stripPref p word with _ | stem <;> rw [hs] at h <;> dsimp only at h
  · cases except_pure_ok h
    exact hb
  · by_cases hl : stem.length < 3
    · rw [if_pos hl] at h
      cases except_pure_ok h
      exact hb
    · rw [if_neg hl] at h
      rcases hf : fstGet a stem with _ | id <;> rw [hf] at h <;> dsimp only at h
      · cases except_pure_ok h
        exact hb
      · obtain ⟨parses, hp, h⟩ := except_bind_ok h
        exact vangaEmit_fold_no_postfix (by intro hc; cases hc) hb h

theorem vangaPhase2Step_no_postfix {a : MorphAnalyzer} {word : Str}
    {b b' : List VangovanieRes} {i : Nat}
    (hb : ∀ r ∈ b, r.method ≠ .Postfix)
    (h : vangaPhase2Step a word b i = .ok b') :
    ∀ r ∈ b', r.method ≠ .Postfix := by
  unfold vangaPhase2Step at h
  dsimp only at h
  by_cases hk : word.take i ∈ KNOWN_PREFIX
  · rw [if_pos hk] at h
    cases except_pure_ok h
    exact hb
  · rw [if_neg hk] at h
    by_cases hl : (word.drop i).length < 3
    · rw [if_pos hl] at h
      cases except_pure_ok h
      exact hb
    · rw [if_neg hl] at h
      rcases hf : fstGet a (word.drop i) with _ | id <;> rw [hf] at h <;>
        dsimp only at h
      · cases except_pure_ok h
        exact hb
      · obtain ⟨parses, hp, h⟩ := except_bind_ok h
        exact vangaEmit_fold_no_postfix (by intro hc; cases hc) hb h

/-- The current predictor emits only prefix candidates (phase 3 is
skipped), so a `Postfix` method never reaches `parse_word`. -/
theorem vangovanie_candidates_no_postfix {a : MorphAnalyzer} {word : Str}
    {all : List VangovanieRes}
    (h : vangovanie_candidates a word = .ok all) :
    ∀ r ∈ all, r.method ≠ .Postfix := by
  unfold vangovanie_candidates at h
  obtain ⟨phase1, hph1, h⟩ := except_bind_ok h
  have h1 : ∀ r ∈ phase1, r.method ≠ .Postfix :=
    foldlM_except_invariant
      (P := fun b : List VangovanieRes => ∀ r ∈ b, r.method ≠ .Postfix)
      (fun b q b' hb hf => vangaPhase1Step_no_postfix hb hf)
      KNOWN_PREFIX [] (by intro r hr; cases hr) phase1 hph1
  exact foldlM_except_invariant
    (P := fun b : List VangovanieRes => ∀ r ∈ b, r.method ≠ .Postfix)
    (fun b q b' hb hf => vangaPhase2Step_no_postfix hb hf)
    _ phase1 h1 all h

/-- The `ParsedWord` that `parse_word` builds from a predictor candidate. -/
def toParsedOOV (word : Str) (r : VangovanieRes) : ParsedWord :=
  ⟨word, r.tags,
   (match r.method with
    | .KnownPrefix affix => affix
    | .UnknownPrefix affix => affix
    | .Postfix => []) ++ r.normal_form,
   .Vangovanie r.method⟩

theorem parse_vanga_fold (word : Str) :
    ∀ (l : List VangovanieRes) (acc : List ParsedWord),
      (∀ r ∈ l, r.method ≠ .Postfix) →
      l.foldlM (parse_vanga_step word) acc =
        .ok (acc ++ l.map (toParsedOOV word)) := by
  intro l
  induction l with
  | nil =>
    intro acc h
    simp [List.foldlM_nil]
    rfl
  | cons r t ih =>
    intro acc h
    rw [List.foldlM_cons]
    rcases hm : r.method with affix | affix | _
    · have hstep : parse_vanga_step word acc r =
          .ok (acc ++ [⟨word, r.tags, affix ++ r.normal_form,
            .Vangovanie (.KnownPrefix affix)⟩]) := by
        unfold parse_vanga_step
        rw [hm]
        rfl
      rw [hstep, except_ok_bind,
        ih _ (fun r2 hr2 => h r2 (List.mem_cons_of_mem _ hr2))]
      have ht : toParsedOOV word r =
          ⟨word, r.tags, affix ++ r.normal_form,
            .Vangovanie (.KnownPrefix affix)⟩ := by
        unfold toParsedOOV
        rw [hm]
      rw [List.map_cons, ht]
      simp [List.append_assoc]
    · have hstep : parse_vanga_step word acc r =
          .ok (acc ++ [⟨word, r.tags, affix ++ r.normal_form,
            .Vangovanie (.UnknownPrefix affix)⟩]) := by
        unfold parse_vanga_step
        rw [hm]
        rfl
      rw [hstep, except_ok_bind,
        ih _ (fun r2 hr2 => h r2 (List.mem_cons_of_mem _ hr2))]
      have ht : toParsedOOV word r =
          ⟨word, r.tags, affix ++ r.normal_form,
            .Vangovanie (.UnknownPrefix affix)⟩ := by
        unfold toParsedOOV
        rw [hm]
      rw [List.map_cons, ht]
      simp [List.append_assoc]
    · exact absurd hm (h r (List.mem_cons_self _ _))

end MorphRS

namespace MorphRS

/-- C7 (amended): if `word = p ++ stem` with `p` a known prefix, the stem at
least 3 characters long and present in the FST while the word itself is
absent, then for every successfully analyzed stem parse whose tag has no
UNPRODUCTIVE grammeme the predictor emits the candidate
`(tag, form.switch_vanga, KnownPrefix p, normalForm, 3/4)`, and `parse_word`
succeeds with an entry of method `Vangovanie (KnownPrefix p)` whose
normal form is `p ++ normalForm`.  Modelled from the spec: the
`MorphAnalyzer::vangovanie` body is absent from src (§4.5); unlike the
original claim, a stem parse free of UNPRODUCTIVE grammemes must exist —
a stem all of whose parses are UNPRODUCTIVE emits nothing (see the
counterexample). -/
theorem C7_known_pref {a : MorphAnalyzer} {word p stem : Str} {id : Nat}
    {parses : List Parse} {parse : Parse} {tag : Tag} {nf : Str}
    {all : List VangovanieRes}
    (hword : fstGet a word = none)
    (hp : p ∈ KNOWN_PREFIX)
    (hstrip : stripPref p word = some stem)
    (hlen : ¬ stem.length < 3)
    (hstem : fstGet a stem = some id)
    (hparses : getParse a id = .ok parses)
    (hparse : parse ∈ parses)
    (htag : getTag a parse.tag = .ok tag)
    (hprod : tag.any (fun g => g ∈ UNPRODUCTIVE) = false)
    (hnf : getLemmas a parse.normal_form = .ok nf)
    (hall : vangovanie_candidates a word = .ok all) :
    (⟨tag, parse.form.switch_vanga, .KnownPrefix p, nf, (3 : ℚ)/4⟩ :
      VangovanieRes) ∈ all ∧
    ∃ res, parse_word a word = .ok res ∧
      ∃ pw ∈ res, pw.word = word ∧ pw.tags = tag ∧
        pw.normal_form = p ++ nf ∧
        pw.method = .Vangovanie (.KnownPrefix p) := by
  have hmem := vangovanie_candidates_mem hp hstrip hlen hstem hparses hparse
    htag hprod hnf hall
  refine ⟨hmem, ?_⟩
  have hne : ¬ all.length = 0 := by
    intro h0
    rw [List.length_eq_zero] at h0
    subst h0
    cases hmem
  have hvang : vangovanie a word = .ok (some (sortRust cmpScoreDesc
      (all.map (fun r => { r with score := r.score / (all.length : ℚ) })))) := by
    unfold vangovanie
    rw [hall, except_ok_bind]
    rw [if_neg hne]
    rfl
  have hnoP : ∀ r ∈ sortRust cmpScoreDesc
      (all.map (fun r => { r with score := r.score / (all.length : ℚ) })),
      r.method ≠ .Postfix := by
    intro r hr
    have hr2 := (sortRust_mem _ _ _).1 hr
    obtain ⟨r0, hr0, rfl⟩ := List.mem_map.1 hr2
    exact vangovanie_candidates_no_postfix hall r0 hr0
  have hpw : parse_word a word = .ok ((sortRust cmpScoreDesc
      (all.map (fun r => { r with score := r.score / (all.length : ℚ) }))).map
      (toParsedOOV word)) := by
    unfold parse_word
    rw [hword]
    dsimp only
    rw [hvang, except_ok_bind]
    dsimp only
    exact parse_vanga_fold word _ [] hnoP
  refine ⟨_, hpw, ?_⟩
  refine ⟨toParsedOOV word
    ⟨tag, parse.form.switch_vanga, .KnownPrefix p, nf,
      ((3 : ℚ)/4) / (all.length : ℚ)⟩, ?_, rfl, rfl, rfl, rfl⟩
  exact List.mem_map_of_mem _
    ((sortRust_mem _ _ _).2 (List.mem_map_of_mem _ hmem))

def gPrep : Gram := ⟨.ParteSpeech .Preposition⟩

def lemma_kot_prep : Lemma := ⟨1, ⟨str "кот", some [gPrep]⟩, none⟩

/-- The dictionary compiled from the single UNPRODUCTIVE lemma `кот`
(tagged as a preposition). -/
def kotD : Dictionary :=
  ⟨[[⟨.Word (.Normal 1), 0, 0, 0⟩]], [[.ParteSpeech .Preposition]],
   [str "кот"], [], [[1]]⟩

def kotF : Fst := [(str "кот", 0)]

def kotA : MorphAnalyzer := MorphAnalyzer.from_dictionary kotD kotF

/-- Counterexample to C7 as stated: `вкот = в ++ кот` satisfies every
hypothesis of the claim — `в` is a known prefix, the stem `кот` has 3
characters and is in the FST, `вкот` is not — yet `parse_word` returns NO
candidate at all: the stem's only parse carries the UNPRODUCTIVE grammeme
`Preposition`, so the known-prefix phase drops it and the predictor emits
nothing. -/
theorem C7_counterexample :
    from_opencorpora [lemma_kot_prep] [] = .ok (kotD, kotF) ∧
    str "вкот" = str "в" ++ str "кот" ∧
    str "в" ∈ KNOWN_PREFIX ∧
    ¬ (str "кот").length < 3 ∧
    fstGet kotA (str "кот") = some 0 ∧
    fstGet kotA (str "вкот") = none ∧
    parse_word kotA (str "вкот") = .ok [] :=
  ⟨by decide, by decide, by decide, by decide, by decide, by decide, by decide⟩

def vangaA : MorphAnalyzer := MorphAnalyzer.from_dictionary vangaD vangaF

/-- The known-prefix candidate the predictor emits for `вкота`. -/
def kprefC : VangovanieRes :=
  ⟨[.ParteSpeech .Noun, .ParteSpeech .Noun], .Vanga .Normal,
   .KnownPrefix (str "в"), str "кот", (3 : ℚ)/4⟩

/-- Witness: the amended C7 statement at the concrete `кота`-dictionary
analyzer and the out-of-vocabulary word `вкота = в ++ кота`. -/
theorem C7_known_pref_witness :
    (kprefC ∈ [kprefC, kprefC, kprefC]) ∧
    ∃ res, parse_word vangaA (str "вкота") = .ok res ∧
      ∃ pw ∈ res, pw.word = str "вкота" ∧
        pw.tags = [.ParteSpeech .Noun, .ParteSpeech .Noun] ∧
        pw.normal_form = str "в" ++ str "кот" ∧
        pw.method = .Vangovanie (.KnownPrefix (str "в")) :=
  @C7_known_pref vangaA (str "вкота") (str "в") (str "кота") 0
    [⟨.Word (.Normal 1), 0, 1, 0⟩, ⟨.Word (.Normal 2), 0, 1, 1⟩,
     ⟨.Word (.Normal 3), 0, 1, 2⟩]
    ⟨.Word (.Normal 1), 0, 1, 0⟩ [.ParteSpeech .Noun, .ParteSpeech .Noun]
    (str "кот") [kprefC, kprefC, kprefC]
    (by decide) (by decide) (by decide) (by decide) (by decide)
    (by decide) (by decide) (by decide) (by decide) (by decide)
    (by rfl)

end MorphRS

namespace MorphRS

/-! ## C2: characterization of `normalized_word` on in-FST words -/

/-- How one entry of `normalized_word`'s output arises from one parse of the
queried word: either the parse is a normal form and converts directly, or it
is non-normal and the entry is a normal-form parse of the normal form's own
FST entry whose OpenCorpora lemma id lies in the parse's lemma row. -/
def normalizedOfParse (a : MorphAnalyzer) (parse : Parse)
    (nw : NormalizedWord) : Prop :=
  (parse.form.is_normal = true ∧ tryIntoNormalized a parse = .ok nw) ∨
  (parse.form.is_normal = false ∧
    ∃ lemmas_link w2 id2 parses2 parse2 fid,
      getRowId a parse.lemma_row_id = .ok lemmas_link ∧
      getLemmas a parse.normal_form = .ok w2 ∧
      fstGet a w2 = some id2 ∧
      getParse a id2 = .ok parses2 ∧
      parse2 ∈ parses2 ∧
      parse2.form.is_normal = true ∧
      parse2.form.id = some fid ∧
      fid ∈ lemmas_link ∧
      tryIntoNormalized a parse2 = .ok nw)

theorem normalized_inner_mono {a : MorphAnalyzer} {lemmas_link : List Nat}
    {acc2 acc2' : List NormalizedWord} {parse2 : Parse} {x : NormalizedWord}
    (hx : x ∈ acc2)
    (h : normalized_inner_step a lemmas_link acc2 parse2 = .ok acc2') :
    x ∈ acc2' := by
  unfold normalized_inner_step at h
  obtain ⟨nw, hnw, h⟩ := except_bind_ok h
  by_cases hc : parse2.form.is_normal = true ∧ nw ∉ acc2
  · rw [if_pos hc] at h
    rcases hid : parse2.form.id with _ | fid <;> rw [hid] at h <;> dsimp only at h
    · cases except_pure_ok h
      exact hx
    · by_cases hf : fid ∈ lemmas_link
      · rw [if_pos hf] at h
        cases except_pure_ok h
        exact List.mem_append.2 (Or.inl hx)
      · rw [if_neg hf] at h
        cases except_pure_ok h
        exact hx
  · rw [if_neg hc] at h
    cases except_pure_ok h
    exact hx

theorem normalized_inner_out {a : MorphAnalyzer} {lemmas_link : List Nat}
    {acc2 acc2' : List NormalizedWord} {parse2 : Parse}
    (h : normalized_inner_step a lemmas_link acc2 parse2 = .ok acc2') :
    ∀ x ∈ acc2', x ∈ acc2 ∨
      (tryIntoNormalized a parse2 = .ok x ∧ parse2.form.is_normal = true ∧
        ∃ fid, parse2.form.id = some fid ∧ fid ∈ lemmas_link) := by
  unfold normalized_inner_step at h
  obtain ⟨nw, hnw, h⟩ := except_bind_ok h
  by_cases hc : parse2.form.is_normal = true ∧ nw ∉ acc2
  · rw [if_pos hc] at h
    rcases hid : parse2.form.id with _ | fid <;> rw [hid] at h <;> dsimp only at h
    · cases except_pure_ok h
      exact fun x hx => Or.inl hx
    · by_cases hf : fid ∈ lemmas_link
      · rw [if_pos hf] at h
        cases except_pure_ok h
        intro x hx
        rcases List.mem_append.1 hx with h2 | h2
        · exact Or.inl h2
        · rcases List.mem_singleton.1 h2 with rfl
          exact Or.inr ⟨hnw, hc.1, fid, rfl, hf⟩
      · rw [if_neg hf] at h
        cases except_pure_ok h
        exact fun x hx => Or.inl hx
  · rw [if_neg hc] at h
    cases except_pure_ok h
    exact fun x hx => Or.inl hx

theorem normalized_inner_adds {a : MorphAnalyzer} {lemmas_link : List Nat}
    {parse2 : Parse} {nw : NormalizedWord} {fid : Nat}
    (htry : tryIntoNormalized a parse2 = .ok nw)
    (hnorm : parse2.form.is_normal = true)
    (hid : parse2.form.id = some fid)
    (hfid : fid ∈ lemmas_link) :
    ∀ (parses2 : List Parse) (acc2 out : List NormalizedWord),
      parse2 ∈ parses2 →
      parses2.foldlM (normalized_inner_step a lemmas_link) acc2 = .ok out →
      nw ∈ out := by
  intro parses2
  induction parses2 with
  | nil => intro acc2 out hmem; cases hmem
  | cons q t ih =>
    intro acc2 out hmem h
    rw [List.foldlM_cons] at h
    obtain ⟨acc1, h1, h2⟩ := except_bind_ok h
    rcases List.mem_cons.1 hmem with rfl | hmem2
    · have hin : nw ∈ acc1 := by
        unfold normalized_inner_step at h1
        obtain ⟨nw2, hnw2, h1⟩ := except_bind_ok h1
        rw [htry] at hnw2
        injection hnw2 with hnw2
        subst hnw2
        by_cases hmem3 : nw ∈ acc2
        · by_cases hc : parse2.form.is_normal = true ∧ nw ∉ acc2
          · exact absurd hmem3 hc.2
          · rw [if_neg hc] at h1
            cases except_pure_ok h1
            exact hmem3
        · rw [if_pos ⟨hnorm, hmem3⟩, hid] at h1
          dsimp only at h1
          rw [if_pos hfid] at h1
          cases except_pure_ok h1
          exact List.mem_append.2 (Or.inr (List.mem_singleton.2 rfl))
      exact foldlM_except_invariant (P := fun b => nw ∈ b)
        (fun b q2 b' hb hf => normalized_inner_mono hb hf) t acc1 hin out h2
    · exact ih acc1 out hmem2 h2

theorem normalized_step_mono {a : MorphAnalyzer}
    {acc acc' : List NormalizedWord} {parse : Parse} {x : NormalizedWord}
    (hx : x ∈ acc) (h : normalized_step a acc parse = .ok acc') : x ∈ acc' := by
  unfold normalized_step at h
  by_cases hn : parse.form.is_normal = true
  · rw [if_pos hn] at h
    obtain ⟨nw, hnw, h⟩ := except_bind_ok h
    cases except_pure_ok h
    exact List.mem_append.2 (Or.inl hx)
  · rw [if_neg hn] at h
    obtain ⟨lemmas_link, hlink, h⟩ := except_bind_ok h
    obtain ⟨w2, hw2, h⟩ := except_bind_ok h
    rcases hf : fstGet a w2 with _ | id2 <;> rw [hf] at h <;> dsimp only at h
    · obtain ⟨i2, hi2, h⟩ := except_bind_ok h
      cases hi2
    · obtain ⟨i2, hi2, h⟩ := except_bind_ok h
      cases except_pure_ok hi2
      obtain ⟨parses2, hp2, h⟩ := except_bind_ok h
      exact foldlM_except_invariant (P := fun b => x ∈ b)
        (fun b q b' hb hf2 => normalized_inner_mono hb hf2)
        parses2 acc hx acc' h

theorem normalized_step_out {a : MorphAnalyzer}
    {acc acc' : List NormalizedWord} {parse : Parse}
    (h : normalized_step a acc parse = .ok acc') :
    ∀ nw ∈ acc', nw ∈ acc ∨ normalizedOfParse a parse nw := by
  unfold normalized_step at h
  by_cases hn : parse.form.is_normal = true
  · rw [if_pos hn] at h
    obtain ⟨nw0, hnw0, h⟩ := except_bind_ok h
    cases except_pure_ok h
    intro nw hnw
    rcases List.mem_append.1 hnw with h2 | h2
    · exact Or.inl h2
    · rcases List.mem_singleton.1 h2 with rfl
      exact Or.inr (Or.inl ⟨hn, hnw0⟩)
  · rw [if_neg hn] at h
    obtain ⟨lemmas_link, hlink, h⟩ := except_bind_ok h
    obtain ⟨w2, hw2, h⟩ := except_bind_ok h
    rcases hf : fstGet a w2 with _ | id2 <;> rw [hf] at h <;> dsimp only at h
    · obtain ⟨i2, hi2, h⟩ := except_bind_ok h
      cases hi2
    · obtain ⟨i2, hi2, h⟩ := except_bind_ok h
      cases except_pure_ok hi2
      obtain ⟨parses2, hp2, h⟩ := except_bind_ok h
      refine foldlM_except_invariant_mem parses2
        (P := fun b : List NormalizedWord =>
          ∀ nw ∈ b, nw ∈ acc ∨ normalizedOfParse a parse nw)
        ?step acc (fun nw hnw => Or.inl hnw) acc' h
      intro b q b' hq hb hf2
      intro nw hnw
      rcases normalized_inner_out hf2 nw hnw with h2 | ⟨htry, hnorm2, fid, hid, hfid⟩
      · exact hb nw h2
      · exact Or.inr (Or.inr ⟨Bool.eq_false_iff.2 hn, lemmas_link, w2, id2,
          parses2, q, fid, hlink, hw2, hf, hp2, hq, hnorm2, hid, hfid, htry⟩)

theorem normalized_step_adds {a : MorphAnalyzer} {parse : Parse}
    {nw : NormalizedWord} (hq : normalizedOfParse a parse nw)
    {acc acc' : List NormalizedWord}
    (h : normalized_step a acc parse = .ok acc') : nw ∈ acc' := by
  unfold normalized_step at h
  rcases hq with ⟨hn, htry⟩ | ⟨hn, lemmas_link, w2, id2, parses2, parse2, fid,
    hlink, hw2, hf, hp2, hmem2, hnorm2, hid, hfid, htry⟩
  · rw [if_pos hn] at h
    obtain ⟨nw0, hnw0, h⟩ := except_bind_ok h
    rw [htry] at hnw0
    injection hnw0 with hnw0
    subst hnw0
    cases except_pure_ok h
    exact List.mem_append.2 (Or.inr (List.mem_singleton.2 rfl))
  · rw [if_neg (by rw [hn]; exact Bool.false_ne_true)] at h
    obtain ⟨link2, hlink2, h⟩ := except_bind_ok h
    rw [hlink] at hlink2
    injection hlink2 with hlink2
    subst hlink2
    obtain ⟨w3, hw3, h⟩ := except_bind_ok h
    rw [hw2] at hw3
    injection hw3 with hw3
    subst hw3
    rw [hf] at h
    dsimp only at h
    obtain ⟨i2, hi2, h⟩ := except_bind_ok h
    cases except_pure_ok hi2
    obtain ⟨parses3, hp3, h⟩ := except_bind_ok h
    rw [hp2] at hp3
    injection hp3 with hp3
    subst hp3
    exact normalized_inner_adds htry hnorm2 hid hfid _ acc acc' hmem2 h

/-- C2: for a word found in the FST, the normalization output is (up to the
final sort) exactly the set generated parse-by-parse: a normal parse
contributes its own conversion, and a non-normal parse contributes the
normal-form parses of its `normalForm`'s FST entry whose lemma id lies in
the parse's lemma row — nothing else is ever returned, and every such entry
is returned. -/
theorem C2_normalized_word {a : MorphAnalyzer} {word : Str} {cid : Nat}
    {vec_parses : List Parse} {out : List NormalizedWord}
    (hfst : fstGet a word = some cid)
    (hparses : getParse a cid = .ok vec_parses)
    (hout : normalized_word a word = .ok out) :
    (∀ nw ∈ out, ∃ parse ∈ vec_parses, normalizedOfParse a parse nw) ∧
    (∀ parse ∈ vec_parses, ∀ nw, normalizedOfParse a parse nw → nw ∈ out) := by
  unfold normalized_word at hout
  rw [hfst] at hout
  dsimp only at hout
  obtain ⟨vp2, hvp2, hout⟩ := except_bind_ok hout
  rw [hparses] at hvp2
  injection hvp2 with hvp2
  subst hvp2
  obtain ⟨normalized, hfold, hout⟩ := except_bind_ok hout
  cases except_pure_ok hout
  constructor
  · intro nw hnw
    have hnw2 := (sortRust_mem cmpNormalizedWord normalized nw).1 hnw
    refine foldlM_except_invariant_mem vec_parses
      (P := fun b : List NormalizedWord =>
        ∀ x ∈ b, ∃ parse ∈ vec_parses, normalizedOfParse a parse x)
      ?step [] (fun x hx => absurd hx (by simp)) normalized hfold nw hnw2
    intro b q b' hq hb hf x hx
    rcases normalized_step_out hf x hx with h2 | h2
    · exact hb x h2
    · exact ⟨q, hq, h2⟩
  · intro parse hparse nw hq
    rw [sortRust_mem]
    obtain ⟨l1, l2, hsplit⟩ := List.append_of_mem hparse
    rw [hsplit, List.foldlM_append] at hfold
    obtain ⟨b1, hb1, hfold⟩ := except_bind_ok hfold
    rw [List.foldlM_cons] at hfold
    obtain ⟨b2, hb2, hfold⟩ := except_bind_ok hfold
    have hin := normalized_step_adds hq hb2
    exact foldlM_except_invariant (P := fun b => nw ∈ b)
      (fun b q b' hb hf => normalized_step_mono hb hf) l2 b2 hin normalized hfold

end MorphRS

namespace MorphRS

/-- A lemma with two forms, so that the inflected form `кота` compiles to a
non-normal (`Different`) parse. -/
def lemma_kot2 : Lemma :=
  ⟨1, ⟨str "кот", some [gNoun]⟩,
   some [⟨str "кот", some [gNoun]⟩, ⟨str "кота", some [gNoun]⟩]⟩

/-- The dictionary compiled from `lemma_kot2`. -/
def kot2D : Dictionary :=
  ⟨[[⟨.Word (.Normal 1), 0, 0, 0⟩], [⟨.Word (.Different 1), 0, 0, 0⟩]],
   [[.ParteSpeech .Noun, .ParteSpeech .Noun]], [str "кот"], [], [[1]]⟩

def kot2F : Fst := [(str "кот", 0), (str "кота", 1)]

def kot2A : MorphAnalyzer := MorphAnalyzer.from_dictionary kot2D kot2F

/-- Witness: the C2 characterization at the concrete two-form dictionary,
where `кота` has exactly one (non-normal) parse and normalizes to the one
normal parse of `кот` whose lemma id 1 lies in the parse's lemma row. -/
theorem C2_normalized_word_witness :
    (∀ nw ∈ [(⟨str "кот", [.ParteSpeech .Noun, .ParteSpeech .Noun],
          .Dictionary⟩ : NormalizedWord)],
        ∃ parse ∈ [(⟨.Word (.Different 1), 0, 0, 0⟩ : Parse)],
          normalizedOfParse kot2A parse nw) ∧
    (∀ parse ∈ [(⟨.Word (.Different 1), 0, 0, 0⟩ : Parse)], ∀ nw,
        normalizedOfParse kot2A parse nw →
          nw ∈ [(⟨str "кот", [.ParteSpeech .Noun, .ParteSpeech .Noun],
            .Dictionary⟩ : NormalizedWord)]) :=
  @C2_normalized_word kot2A (str "кота") 1 [⟨.Word (.Different 1), 0, 0, 0⟩]
    [⟨str "кот", [.ParteSpeech .Noun, .ParteSpeech .Noun], .Dictionary⟩]
    (by decide) (by decide) (by decide)

end MorphRS
